import Mathlib

/-!
Verification of the tallythermal repository: a shallow embedding of the
document extractor (src/parseTallyXML.js) and the receipt command
generator (src/generateEscPosCommands.js, shipped inside
src/OrderInfoControls.jsx), together with proofs settling the frozen
claims about them.

Modelling conventions:
JavaScript strings are modelled as lists of characters (JStr).
JavaScript numbers are modelled as exact rationals extended with a NaN
element (JNum); the source never relies on binary floating point
rounding, and all claim-relevant arithmetic is on small decimals, so
exact rational arithmetic is the intended real-number semantics of the
code. Infinities and the sign of negative zero are not modelled; no
claim depends on them.
DOM parsing (DOMParser, querySelector) is a platform service, not
repository code: its outcome is abstracted as the XmlInput and
VoucherXml data below, whose fields hold the text contents the source
reads with its get and getAll helpers. A missing element yields the
empty string via the get helper, exactly as in the source.
-/

namespace Tally

/-- A JavaScript string, modelled as its list of characters. -/
abbrev JStr := List Char

/-- Coerce a Lean string literal to the JStr model. -/
def jstr (s : String) : JStr := s.toList

/-- The whitespace class stripped by the JavaScript trim builtin
(restricted to the ASCII whitespace characters; the exotic Unicode
space characters do not occur in any claim). -/
def jsWhite (c : Char) : Bool :=
  c = ' ' || c = '\t' || c = '\n' || c = '\r' || c = '\x0b' || c = '\x0c'

/-- Model of the trim builtin: strip leading and trailing whitespace. -/
def jsTrim (s : JStr) : JStr :=
  ((s.dropWhile jsWhite).reverse.dropWhile jsWhite).reverse

/-- Model of the get helper of parseTallyXML: the trimmed text content
of the first matching element, the empty string when absent (an absent
element is modelled by an empty stored text). -/
def jsGet (s : JStr) : JStr := jsTrim s

/-- Model of the String.prototype.includes builtin: substring test. -/
def jsIncludes (hay needle : JStr) : Prop := needle <:+: hay

instance (hay needle : JStr) : Decidable (jsIncludes hay needle) := by
  unfold jsIncludes; infer_instance

/-- Model of toUpperCase (ASCII; no claim uses non-ASCII letters). -/
def jsUpper (s : JStr) : JStr := s.map Char.toUpper

/-- Model of the or-else idiom s1 or s2 on strings: the second operand
when the first is empty (falsy), else the first. -/
def jsOrStr (a b : JStr) : JStr := if a = [] then b else a

/-- Model of String.prototype.repeat applied via printSeparator: the
string repeated n times. -/
def strRepeat (s : JStr) (n : Nat) : JStr := (List.replicate n s).flatten

/-- Model of String.prototype.padEnd with spaces. -/
def padEnd (s : JStr) (n : Nat) : JStr :=
  s ++ List.replicate (n - s.length) ' '

/-- Model of String.prototype.padStart with spaces. -/
def padStart (s : JStr) (n : Nat) : JStr :=
  List.replicate (n - s.length) ' ' ++ s

/-- Model of String.prototype.split at a separator character; mirrors
the JavaScript behaviour of returning one (possibly empty) field more
than the number of separators. -/
def jsSplitChar (c : Char) (s : JStr) : List JStr :=
  let h := s.takeWhile (· ≠ c)
  match hrest : s.dropWhile (· ≠ c) with
  | [] => [h]
  | _ :: t => h :: jsSplitChar c t
termination_by s.length
decreasing_by
  have h1 : (s.dropWhile (· ≠ c)).length ≤ s.length :=
    (List.dropWhile_sublist _).length_le
  rw [hrest] at h1
  simp at h1
  omega

/-- Model of String.prototype.lastIndexOf for a single character,
returning -1 when the character does not occur. -/
def lastIndexOfC (c : Char) : JStr → Int
  | [] => -1
  | a :: as =>
    if 0 ≤ lastIndexOfC c as then lastIndexOfC c as + 1
    else if a = c then 0 else -1

/-- Exact rational addition in kernel-computable form; qAdd_eq below
proves it is ordinary addition on ℚ. -/
def qAdd (a b : ℚ) : ℚ := Rat.divInt (a.num * b.den + b.num * a.den) (a.den * b.den)

/-- Exact rational multiplication in kernel-computable form; qMul_eq
below proves it is ordinary multiplication on ℚ. -/
def qMul (a b : ℚ) : ℚ := Rat.divInt (a.num * b.num) (a.den * b.den)

/-- Exact rational division in kernel-computable form; qDiv_eq below
proves it is ordinary division on ℚ. -/
def qDiv (a b : ℚ) : ℚ := Rat.divInt (a.num * b.den) (a.den * b.num)

/-- A JavaScript number: an exact rational or NaN. -/
inductive JNum where
  | nan : JNum
  | num (q : ℚ) : JNum
deriving DecidableEq

/-- Model of JavaScript addition (NaN propagates). -/
def jnumAdd : JNum → JNum → JNum
  | .num a, .num b => .num (qAdd a b)
  | _, _ => .nan

/-- Model of Math.abs (NaN propagates). -/
def jnumAbs : JNum → JNum
  | .num a => .num |a|
  | .nan => .nan

/-- Model of the isNaN test. -/
def jnumIsNaN : JNum → Bool
  | .nan => true
  | .num _ => false

/-- JavaScript truthiness of a number: false for 0 and NaN. -/
def jnumTruthy : JNum → Bool
  | .nan => false
  | .num q => q ≠ 0

/-- Model of the or-else idiom a or b on numbers (used for the SGST
fallback): the second operand when the first is falsy. -/
def jnumOr (a b : JNum) : JNum := if jnumTruthy a then a else b

/-- Strictly-positive test on a JavaScript number (NaN compares false). -/
def jnumPos : JNum → Prop
  | .nan => False
  | .num q => 0 < q

instance : DecidablePred jnumPos := by
  intro x; cases x <;> simp [jnumPos] <;> infer_instance

/-- Numeric value of a list of decimal digit characters. -/
def digitsToNat (l : JStr) : Nat :=
  l.foldl (fun a c => 10 * a + (c.toNat - 48)) 0

/-- Powers of ten as a natural number (kernel-computable). -/
def pow10 : Nat → Nat
  | 0 => 1
  | n + 1 => 10 * pow10 n

/-- Ten to an integer power, as a rational. -/
def tenPowZ : Int → ℚ
  | .ofNat n => (pow10 n : ℚ)
  | .negSucc n => qDiv 1 (pow10 (n + 1) : ℚ)

/-- Exponent part accepted by parseFloat after an e or E: an optional
sign and at least one digit; anything else leaves exponent 0 (the
longest valid prefix of the input is used). -/
def jsExpOf : JStr → Int
  | '-' :: u =>
    if u.takeWhile Char.isDigit = [] then 0
    else -(digitsToNat (u.takeWhile Char.isDigit) : Int)
  | '+' :: u =>
    if u.takeWhile Char.isDigit = [] then 0
    else (digitsToNat (u.takeWhile Char.isDigit) : Int)
  | u =>
    if u.takeWhile Char.isDigit = [] then 0
    else (digitsToNat (u.takeWhile Char.isDigit) : Int)

/-- Model of the parseFloat builtin: skip leading whitespace, read an
optional sign, integer digits, an optional fractional part and an
optional exponent, taking the longest valid prefix; NaN when no digits
are found. The special Infinity literal and hexadecimal forms are not
modelled (no claim involves them). -/
def jsParseFloat (s0 : JStr) : JNum :=
  let s := s0.dropWhile jsWhite
  let sgn : ℚ := match s with
    | '-' :: _ => -1
    | _ => 1
  let s := match s with
    | '-' :: t => t
    | '+' :: t => t
    | _ => s
  let ip := s.takeWhile Char.isDigit
  let s1 := s.dropWhile Char.isDigit
  let fp := match s1 with
    | '.' :: t => t.takeWhile Char.isDigit
    | _ => []
  let s2 := match s1 with
    | '.' :: t => t.dropWhile Char.isDigit
    | _ => s1
  if ip = [] ∧ fp = [] then JNum.nan
  else
    let e : Int := match s2 with
      | 'e' :: t => jsExpOf t
      | 'E' :: t => jsExpOf t
      | _ => 0
    JNum.num (qMul (qMul sgn
      (qAdd (digitsToNat ip : ℚ) (qDiv (digitsToNat fp : ℚ) (pow10 fp.length : ℚ))))
      (tenPowZ e))

/-- The result of Number.prototype.toFixed with 2 fraction digits: NaN
renders as the string NaN, otherwise the value is an exact count of
hundredths. -/
inductive Fixed2 where
  | nan : Fixed2
  | f2 (cents : Int) : Fixed2
deriving DecidableEq

/-- The integer count of hundredths produced by toFixed with 2 fraction
digits: per the ECMAScript algorithm, the sign is removed first and the
magnitude is rounded to the nearest hundredth, ties away from zero. -/
def jsFix2 (q : ℚ) : Int :=
  if q < 0 then -⌊qAdd (qMul 100 (-q)) (Rat.divInt 1 2)⌋
  else ⌊qAdd (qMul 100 q) (Rat.divInt 1 2)⌋

/-- Model of toFixed with 2 fraction digits on a JavaScript number. -/
def toFixed2 : JNum → Fixed2
  | .nan => .nan
  | .num q => .f2 (jsFix2 q)

/-- Model of parseFloat applied to a toFixed-rendered string: the string
NaN parses back to NaN, a fixed 2-digit decimal parses to its value. -/
def fixed2Num : Fixed2 → JNum
  | .nan => .nan
  | .f2 c => .num (Rat.divInt c 100)

/-- Decimal digits of a natural number. -/
def natDigits (n : Nat) : JStr := (Nat.repr n).toList

/-- The rendered text of a toFixed result with 2 fraction digits. -/
def f2str : Fixed2 → JStr
  | .nan => jstr "NaN"
  | .f2 c =>
    (if c < 0 then ['-'] else []) ++
      natDigits (c.natAbs / 100) ++ ['.'] ++
      (if c.natAbs % 100 < 10 then ['0'] else []) ++ natDigits (c.natAbs % 100)

/-! ## Document extractor (src/parseTallyXML.js) -/

/-- One inventory entry element, holding the raw text contents that
parseItemsFromList reads (empty string for an absent child element). -/
structure InvEntryXml where
  stockItemName : JStr
  actualQty : JStr
  rateText : JStr
  amountText : JStr
deriving DecidableEq

/-- One LEDGERENTRIES.LIST element, holding the raw text contents the
extractor reads from it. -/
structure LedgerEntryXml where
  ledgerName : JStr
  amountText : JStr
  isPartyLedger : JStr
deriving DecidableEq

/-- The VOUCHER subtree: the text contents and child element lists the
extractor reads from it. -/
structure VoucherXml where
  voucherTypeName : JStr
  objView : JStr
  voucherNumber : JStr
  dateRaw : JStr
  enteredBy : JStr
  narration : JStr
  cmpGstin : JStr
  partyName : JStr
  partyGstin : JStr
  basicBuyerAddress : List JStr
  allInventoryEntries : List InvEntryXml
  inventoryEntriesIn : List InvEntryXml
  inventoryEntriesOut : List InvEntryXml
  ledgerEntries : List LedgerEntryXml
deriving DecidableEq

/-- A successfully DOM-parsed document: the company-name element under
REQUESTDESC and the root VOUCHER element, either possibly absent. -/
structure XmlDoc where
  svCurrentCompany : Option JStr
  voucher : Option VoucherXml
deriving DecidableEq

/-- Outcome of the DOMParser stage on the cleaned XML text: either the
parser reported an error node, or a parsed document. -/
inductive XmlInput where
  | parseError (msg : JStr) : XmlInput
  | ok (doc : XmlDoc) : XmlInput
deriving DecidableEq

/-- One extracted item, as built by parseItemsFromList and numbered
afterwards; rate and amount hold the toFixed(2) results. -/
structure Item where
  sNo : Nat
  name : JStr
  qty : JStr
  rate : Fixed2
  amount : Fixed2
deriving DecidableEq

/-- The totals object of the extracted invoice. -/
structure Totals where
  subtotal : Fixed2
  igst : Fixed2
  cgst : Fixed2
  sgst : Fixed2
  total : Fixed2
deriving DecidableEq

/-- The company object; address and phone are never produced by the
extractor (undefined in the source output) but are read by the command
generator, hence the Option fields. -/
structure Company where
  name : JStr
  gstin : JStr
  address : Option JStr := none
  phone : Option JStr := none
deriving DecidableEq

/-- The order object of the extracted invoice. -/
structure OrderInfo where
  number : JStr
  date : JStr
  user : JStr
deriving DecidableEq

/-- The party object of the extracted invoice. -/
structure Party where
  name : JStr
  address : JStr
  gstin : JStr
deriving DecidableEq

/-- The extracted document. The last three fields are absent
(undefined) on every extractor output but are read by the command
generator, hence the Option type. -/
structure Invoice where
  heading : JStr
  company : Company
  order : OrderInfo
  party : Party
  items : List Item
  totals : Totals
  narration : JStr
  amountInWords : Option JStr := none
  termsAndConditions : Option JStr := none
  authorizedSignatory : Option JStr := none
deriving DecidableEq

/-- Model of the parseQty helper: first space-separated token of the
trimmed quantity string, or the string 0 when that token is not
numeric. -/
def parseQty (qtyStr : JStr) : JStr :=
  let q := (jsTrim qtyStr).takeWhile (· ≠ ' ')
  if jnumIsNaN (jsParseFloat q) then jstr "0" else q

/-- The rate number read from an entry: parseFloat of the part of the
RATE text before the first slash, with the or-zero default for an empty
string. -/
def rateNum (e : InvEntryXml) : JNum :=
  let r0 := (jsGet e.rateText).takeWhile (· ≠ '/')
  if r0 = [] then .num 0 else jsParseFloat r0

/-- The amount number read from an entry: parseFloat of the AMOUNT
text, with the or-zero default for an empty string. -/
def amountNum (e : InvEntryXml) : JNum :=
  let a := jsGet e.amountText
  if a = [] then .num 0 else jsParseFloat a

/-- Build one item from an inventory entry element, as in the body of
parseItemsFromList; sNo is assigned later. -/
def mkItem (e : InvEntryXml) : Item :=
  { sNo := 0
    name := jsGet e.stockItemName
    qty := parseQty (jsGet e.actualQty)
    rate := toFixed2 (rateNum e)
    amount := toFixed2 (jnumAbs (amountNum e)) }

/-- Model of parseItemsFromList. -/
def parseItemsFromList (es : List InvEntryXml) : List Item :=
  if es.length = 0 then [] else es.map mkItem

/-- The voucher-type-conditional item list selection of parseTallyXML. -/
def selectItems (v : VoucherXml) : List Item :=
  let voucherTypeName := jsUpper (jsGet v.voucherTypeName)
  let objView := jsUpper (jsGet v.objView)
  if jsIncludes voucherTypeName (jstr "STOCK JOURNAL") ∨
      jsIncludes objView (jstr "CONSUMPTION VOUCHER VIEW") then
    parseItemsFromList v.inventoryEntriesOut
  else if jsIncludes voucherTypeName (jstr "SALES ORDER") ∨
      jsIncludes voucherTypeName (jstr "SALES") then
    let items := parseItemsFromList v.allInventoryEntries
    if items.length = 0 then parseItemsFromList v.inventoryEntriesOut else items
  else if jsIncludes voucherTypeName (jstr "MATERIAL OUT") ∨
      jsIncludes voucherTypeName (jstr "DELIVERY") then
    let items := parseItemsFromList v.inventoryEntriesOut
    if items.length = 0 then parseItemsFromList v.allInventoryEntries else items
  else
    parseItemsFromList v.allInventoryEntries ++
      parseItemsFromList v.inventoryEntriesIn ++
      parseItemsFromList v.inventoryEntriesOut

/-- The sNo assignment pass: index + 1 in final list order. -/
def assignSNo (items : List Item) : List Item :=
  items.enum.map (fun p => { p.2 with sNo := p.1 + 1 })

/-- The subtotal reduction: sum of parseFloat of each item amount
string, starting from 0. -/
def subtotalNum (items : List Item) : JNum :=
  items.foldl (fun s it => jnumAdd s (fixed2Num it.amount)) (.num 0)

/-- The amount read inside findAmount: raw (untrimmed) AMOUNT text with
the or-zero default. -/
def ledgerRawNum (e : LedgerEntryXml) : JNum :=
  if e.amountText = [] then .num 0 else jsParseFloat e.amountText

/-- The amount read for the party ledger total: trimmed AMOUNT text via
the get helper, with the or-zero default. -/
def ledgerTrimNum (e : LedgerEntryXml) : JNum :=
  let a := jsGet e.amountText
  if a = [] then .num 0 else jsParseFloat a

/-- Model of the findAmount helper. -/
def findAmount (v : VoucherXml) (name : JStr) : JNum :=
  match v.ledgerEntries.find? (fun e => jsGet e.ledgerName = name) with
  | none => .num 0
  | some e => ledgerRawNum e

/-- The heading selection chain of parseTallyXML, evaluated against the
upper-cased voucher type. -/
def headingOf (voucherTypeName : JStr) : JStr :=
  if jsIncludes voucherTypeName (jstr "SALES ORDER") then jstr "SALES ORDER"
  else if jsIncludes voucherTypeName (jstr "MATERIAL OUT") ∨
      jsIncludes voucherTypeName (jstr "DELIVERY") then jstr "MATERIAL CHALLAN"
  else if jsIncludes voucherTypeName (jstr "SALES") then jstr "SALES INVOICE"
  else if jsIncludes voucherTypeName (jstr "STOCK JOURNAL") then jstr "STOCK JOURNAL"
  else jstr "DOCUMENT"

/-- Model of the formatDate helper: YYYYMMDD to DD-MM-YYYY, empty in
gives empty out. -/
def formatDate (d : JStr) : JStr :=
  if d = [] then []
  else ((d.drop 6).take 2) ++ ['-'] ++ ((d.drop 4).take 2) ++ ['-'] ++ (d.take 4)

/-- The invoice built from a parsed document with a present voucher
element, following parseTallyXML line by line. -/
def buildInvoice (d : XmlDoc) (v : VoucherXml) : Invoice :=
  let companyName := match d.svCurrentCompany with
    | none => []
    | some t => jsTrim t
  let address := (jstr "\n").intercalate (v.basicBuyerAddress.map jsTrim)
  let items := assignSNo (selectItems v)
  let subtotal := subtotalNum items
  let igst := findAmount v (jstr "IGST")
  let cgst := findAmount v (jstr "CGST")
  let sgst := jnumOr (findAmount v (jstr "SGST")) (findAmount v (jstr "SGST/UTGST"))
  let partyAmountEntry := v.ledgerEntries.find? (fun e => jsGet e.isPartyLedger = jstr "Yes")
  let total := match partyAmountEntry with
    | some e => toFixed2 (jnumAbs (ledgerTrimNum e))
    | none => toFixed2 subtotal
  { heading := headingOf (jsUpper (jsGet v.voucherTypeName))
    company := { name := companyName, gstin := jsGet v.cmpGstin }
    order :=
      { number := jsGet v.voucherNumber
        date := formatDate (jsGet v.dateRaw)
        user := jsGet v.enteredBy }
    party :=
      { name := jsGet v.partyName
        address := address
        gstin := jsGet v.partyGstin }
    items := items
    totals :=
      { subtotal := toFixed2 subtotal
        igst := toFixed2 igst
        cgst := toFixed2 cgst
        sgst := toFixed2 sgst
        total := total }
    narration := jsOrStr (jsGet v.narration) [] }

/-- Model of parseTallyXML: a DOM parse error or a missing VOUCHER
element throws, and the surrounding catch returns null (none);
otherwise the complete invoice is returned. -/
def parseTallyXML : XmlInput → Option Invoice
  | .parseError _ => none
  | .ok d =>
    match d.voucher with
    | none => none
    | some v => some (buildInvoice d v)

/-! ## Command generator (generateEscPosCommands) -/

/-- UTF-8 bytes of one character, as produced by TextEncoder. -/
def utf8Char (c : Char) : List Nat :=
  let n := c.toNat
  if n < 0x80 then [n]
  else if n < 0x800 then
    [0xC0 ||| (n >>> 6), 0x80 ||| (n &&& 0x3F)]
  else if n < 0x10000 then
    [0xE0 ||| (n >>> 12), 0x80 ||| ((n >>> 6) &&& 0x3F), 0x80 ||| (n &&& 0x3F)]
  else
    [0xF0 ||| (n >>> 18), 0x80 ||| ((n >>> 12) &&& 0x3F),
      0x80 ||| ((n >>> 6) &&& 0x3F), 0x80 ||| (n &&& 0x3F)]

/-- Model of the encodeText helper: global replacement of the rupee
sign by the ASCII transliteration, then TextEncoder (UTF-8). -/
def encodeText (s : JStr) : List Nat :=
  (s.flatMap (fun c => if c = '₹' then jstr "Rs. " else [c])).flatMap utf8Char

/-- One push made by the generator, tagged by the helper that makes it:
an alignment, bold or double-size command, a text line (printLine), a
text fragment without line feed, or raw bytes pushed directly. -/
inductive Op where
  | align (a : JStr) : Op
  | bold (b : Bool) : Op
  | dsize (b : Bool) : Op
  | text (s : JStr) : Op
  | textNoLF (s : JStr) : Op
  | raw (bs : List Nat) : Op
deriving DecidableEq

/-- Byte serialization of one push, following the bodies of
setAlignment, setBold, setDoubleSize and printLine. -/
def flattenOp : Op → List Nat
  | .align a =>
    [0x1B, 0x61, if a = jstr "center" then 0x01 else if a = jstr "right" then 0x02 else 0x00]
  | .bold b => [0x1B, 0x45, if b then 0x01 else 0x00]
  | .dsize b => [0x1B, 0x21, if b then 0x30 else 0x00]
  | .text s => encodeText s ++ [0x0A]
  | .textNoLF s => encodeText s
  | .raw bs => bs

/-- The print settings consumed by the generator. The logo field
abstracts the asynchronous printImage call on settings.logoUrl: none
when no logoUrl is set (falsy), otherwise the bytes the image promise
resolved with (empty on load failure). -/
structure Settings where
  headerAlignment : JStr
  lineSeparator : JStr
  labelBold : Bool
  valueBold : Bool
  logo : Option (List Nat) := none

/-- The separator string actually used: the configured one, or a dash
when it is empty (falsy). -/
def sepChar (st : Settings) : JStr := jsOrStr st.lineSeparator (jstr "-")

/-- The separator line pushed by printSeparator at the receipt width. -/
def sepLine (st : Settings) : JStr := strRepeat (sepChar st) 42

/-- The company-name wrapping loop: take a 14-character chunk; when the
chunk is full and has a space after its first character, break at the
last space and skip it, else hard-break after the chunk; each emitted
line is trimmed. -/
def wrapCompany (s : JStr) : List JStr :=
  if h : s.length = 0 then []
  else
    let line := s.take 14
    let lastSpaceIndex := lastIndexOfC ' ' line
    if 0 < lastSpaceIndex ∧ line.length = 14 then
      jsTrim (line.take lastSpaceIndex.toNat) ::
        wrapCompany (s.drop (lastSpaceIndex.toNat + 1))
    else
      jsTrim line :: wrapCompany (s.drop 14)
termination_by s.length
decreasing_by
  · simp only [List.length_drop]
    omega
  · simp only [List.length_drop]
    omega

/-- Ops of the logo block (section 0). -/
def logoOps (st : Settings) : List Op :=
  match st.logo with
  | none => []
  | some bs => [.align (jstr "center"), .raw bs, .text []]

/-- Ops of the company header block (section 1). -/
def companyOps (inv : Invoice) (st : Settings) : List Op :=
  [.align st.headerAlignment, .bold true, .dsize true] ++
  (if inv.company.name ≠ [] then (wrapCompany inv.company.name).map Op.text else []) ++
  [.dsize false, .bold false] ++
  (match inv.company.address with
    | some a => if a ≠ [] then (jsSplitChar '\n' a).map Op.text else []
    | none => []) ++
  (match inv.company.phone with
    | some p => if p ≠ [] then [.text p] else []
    | none => []) ++
  (if inv.company.gstin ≠ [] then [.text (jstr "GSTIN: " ++ inv.company.gstin)] else []) ++
  [.text []]

/-- Ops of the heading block (section 2). -/
def headingOps (inv : Invoice) (st : Settings) : List Op :=
  [.text (sepLine st), .align (jstr "center"), .bold true] ++
  (if inv.heading ≠ [] then [.text inv.heading] else []) ++
  [.bold false, .text (sepLine st), .text []]

/-- Ops of the order details block (section 3). -/
def orderOps (inv : Invoice) (st : Settings) : List Op :=
  [.align (jstr "left"),
    .bold st.labelBold, .textNoLF (jstr "Voucher No: "),
    .bold st.valueBold, .text inv.order.number,
    .bold st.labelBold, .textNoLF (jstr "Date: "),
    .bold st.valueBold, .text inv.order.date,
    .bold st.labelBold, .textNoLF (jstr "Entered By: "),
    .bold st.valueBold, .text inv.order.user,
    .bold false, .text (sepLine st), .text []]

/-- Ops of the party details block (section 4). -/
def partyOps (inv : Invoice) : List Op :=
  if inv.party.name ≠ [] then
    [.bold true, .text (jstr "PARTY DETAILS:"), .bold false, .text inv.party.name] ++
    (if inv.party.address ≠ [] then (jsSplitChar '\n' inv.party.address).map Op.text else []) ++
    (if inv.party.gstin ≠ [] then [.text (jstr "GSTIN: " ++ inv.party.gstin)] else []) ++
    [.text []]
  else []

/-- Ops of the items table header (section 5). -/
def itemsHeaderOps (st : Settings) : List Op :=
  [.text (sepLine st), .align (jstr "left"), .bold true,
    .text (padEnd (jstr "S.No") 3 ++ [' '] ++ padEnd (jstr "Item Name") 38),
    .text (List.replicate 4 ' ' ++ padEnd (jstr "Qty") 5 ++ [' '] ++
      padEnd (jstr "Rate") 8 ++ [' '] ++ padStart (jstr "Amount") 8),
    .bold false, .text (sepLine st)]

/-- The wrapped continuation lines of a long item name: hard breaks at
the remaining width, indented under the name column. -/
def wrapNameTail (rem : JStr) : List Op :=
  if _h : rem.length = 0 then []
  else .text (List.replicate 4 ' ' ++ rem.take 38) :: wrapNameTail (rem.drop 38)
termination_by rem.length
decreasing_by
  simp only [List.length_drop]
  omega

/-- The right-aligned quantity line text of one item. -/
def qtyRateAmountText (it : Item) : JStr :=
  jstr "Qty: " ++ f2str (toFixed2 (jsParseFloat it.qty)) ++
  jstr " @ Rs. " ++ f2str (toFixed2 (fixed2Num it.rate)) ++
  jstr " = Rs. " ++ f2str (toFixed2 (fixed2Num it.amount))

/-- The second item row: the quantity line left-padded with spaces to
the 42-column width, the padding clamped at zero. -/
def itemRow2 (it : Item) : JStr :=
  let t := qtyRateAmountText it
  List.replicate (max 0 (42 - (t.length : Int))).toNat ' ' ++ t

/-- Ops of one item block in the items list (section 6 loop body). -/
def itemOps (it : Item) : List Op :=
  [.bold true,
    .text (padEnd (natDigits it.sNo) 3 ++ [' '] ++ it.name.take 38),
    .bold false] ++
  (if 38 < it.name.length then wrapNameTail (it.name.drop 38) else []) ++
  [.text (itemRow2 it), .text []]

/-- Ops of the items list (section 6). -/
def itemsOps (inv : Invoice) : List Op :=
  (if inv.items.length ≠ 0 then (inv.items.map itemOps).flatten
    else [.text (jstr "No items found.")]) ++
  [.text []]

/-- Ops of the totals block (section 7). -/
def totalsOps (t : Totals) (st : Settings) : List Op :=
  [.text (sepLine st), .align (jstr "right"),
    .text (jstr "Sub Total: " ++ jsOrStr (f2str t.subtotal) (jstr "0.00"))] ++
  (if jnumPos (fixed2Num t.cgst) then [.text (jstr "CGST: " ++ f2str t.cgst)] else []) ++
  (if jnumPos (fixed2Num t.sgst) then [.text (jstr "SGST: " ++ f2str t.sgst)] else []) ++
  (if jnumPos (fixed2Num t.igst) then [.text (jstr "IGST: " ++ f2str t.igst)] else []) ++
  [.bold true, .text (jstr "TOTAL: Rs. " ++ jsOrStr (f2str t.total) (jstr "0.00")),
    .bold false, .text []]

/-- Ops of the amount-in-words block (section 8). -/
def amountWordsOps (inv : Invoice) : List Op :=
  match inv.amountInWords with
  | some w =>
    if w ≠ [] then
      [.align (jstr "left"), .text (jstr "Amount in Words:"),
        .bold true, .text w, .bold false, .text []]
    else []
  | none => []

/-- Hard 42-column wrapping of a free-text block. -/
def hardWrap42 (s : JStr) : List Op :=
  if _h : s.length = 0 then []
  else .text (s.take 42) :: hardWrap42 (s.drop 42)
termination_by s.length
decreasing_by
  simp only [List.length_drop]
  omega

/-- Ops of the narration block (section 9). -/
def narrationOps (inv : Invoice) (st : Settings) : List Op :=
  if inv.narration ≠ [] then
    [.text (sepLine st), .align (jstr "center"), .bold true,
      .text (jstr "Remarks:"), .bold false, .align (jstr "left")] ++
    hardWrap42 inv.narration ++
    [.text (sepLine st), .text []]
  else []

/-- Ops of the terms block (section 10). -/
def termsOps (inv : Invoice) (st : Settings) : List Op :=
  match inv.termsAndConditions with
  | some s =>
    if s ≠ [] then
      [.text (sepLine st), .align (jstr "center"),
        .text (jstr "Terms & Conditions:"), .align (jstr "left")] ++
      hardWrap42 s ++ [.text []]
    else []
  | none => []

/-- Ops of the signatory block (section 11). -/
def signatoryOps (inv : Invoice) : List Op :=
  match inv.authorizedSignatory with
  | some s =>
    if s ≠ [] then [.align (jstr "right"), .text [], .text [], .text s, .text []]
    else []
  | none => []

/-- Ops of the thank-you block (section 12). -/
def thanksOps : List Op :=
  [.align (jstr "center"), .text (jstr "Thank you for your business!"), .text []]

/-- The complete push sequence of one generation, in source order,
ending with the paper-feed line feeds and the full cut. -/
def genOps (inv : Invoice) (st : Settings) : List Op :=
  [.raw [0x1B, 0x40]] ++
  logoOps st ++
  companyOps inv st ++
  headingOps inv st ++
  orderOps inv st ++
  partyOps inv ++
  itemsHeaderOps st ++
  itemsOps inv ++
  totalsOps inv.totals st ++
  amountWordsOps inv ++
  narrationOps inv st ++
  termsOps inv st ++
  signatoryOps inv ++
  thanksOps ++
  [.raw [0x0A, 0x0A, 0x0A, 0x0A, 0x0A], .raw [0x1D, 0x56, 0x00]]

/-- Model of generateEscPosCommands: empty buffer on a null document,
otherwise the serialized push sequence. -/
def generateEscPosCommands (x : Option Invoice) (st : Settings) : List Nat :=
  match x with
  | none => []
  | some inv => ((genOps inv st).map flattenOp).flatten

/-! ## Raster image conversion (printImage) -/

/-- One RGBA pixel of the scaled canvas image (the alpha channel is
never read by the conversion). -/
structure Pixel where
  r : Nat
  g : Nat
  b : Nat
deriving DecidableEq

/-- The luminance of a pixel, 0.299 R + 0.587 G + 0.114 B, in exact
rational arithmetic. -/
def luminance (p : Pixel) : ℚ :=
  qAdd (qAdd (qMul (Rat.divInt 299 1000) (p.r : ℚ)) (qMul (Rat.divInt 587 1000) (p.g : ℚ)))
    (qMul (Rat.divInt 114 1000) (p.b : ℚ))

/-- Bytes per bitmap row: ceil of width over 8. -/
def bytesPerRow (w : Nat) : Nat := (w + 7) / 8

/-- One step of the pixel loop: set the MSB-first bit of the byte for
this pixel when its luminance is below the 128 threshold. -/
def rasterStep (w : Nat) (pix : Nat → Nat → Pixel) (a : List Nat) (yx : Nat × Nat) :
    List Nat :=
  if luminance (pix yx.2 yx.1) < 128 then
    let idx := yx.1 * bytesPerRow w + yx.2 / 8
    a.set idx (a.getD idx 0 ||| (1 <<< (7 - yx.2 % 8)))
  else a

/-- The row-major pixel visiting order of the double loop: y outer,
x inner. -/
def rasterCoords (w h : Nat) : List (Nat × Nat) :=
  (List.range h).flatMap (fun y => (List.range w).map (fun x => (y, x)))

/-- The packed monochrome bitmap built by the double loop, starting
from the zero-filled Uint8Array. -/
def rasterBitmap (w h : Nat) (pix : Nat → Nat → Pixel) : List Nat :=
  (rasterCoords w h).foldl (rasterStep w pix) (List.replicate (bytesPerRow w * h) 0)

/-- Math.round: nearest integer, half toward positive infinity. -/
def jsRound (q : ℚ) : Int := ⌊qAdd q (Rat.divInt 1 2)⌋

/-- Model of printImage on a successfully loaded image of the given
natural size: the scaled height preserving aspect ratio, then the
GS v 0 raster command header followed by the packed bitmap. The canvas
resampling is the platform renderer; the model receives the scaled
pixel data directly. -/
def printImageBytes (imgW imgH : Nat) (pix : Nat → Nat → Pixel) (targetW : Nat) :
    List Nat :=
  let h := (jsRound (qDiv (qMul (targetW : ℚ) (imgH : ℚ)) (imgW : ℚ))).toNat
  let bpr := bytesPerRow targetW
  [0x1D, 0x76, 0x30, 0x00, bpr % 256, bpr / 256 % 256, h % 256, h / 256 % 256] ++
  rasterBitmap targetW h pix

/-! ## Concrete fixtures used by witnesses and counterexamples -/

/-- A voucher skeleton with every field empty. -/
def emptyVoucher : VoucherXml :=
  { voucherTypeName := [], objView := [], voucherNumber := [], dateRaw := [],
    enteredBy := [], narration := [], cmpGstin := [], partyName := [],
    partyGstin := [], basicBuyerAddress := [], allInventoryEntries := [],
    inventoryEntriesIn := [], inventoryEntriesOut := [], ledgerEntries := [] }

/-- An entry whose raw amount 0.004 rounds to 0.00 at extraction. -/
def fxEntry004 : InvEntryXml :=
  { stockItemName := jstr "A", actualQty := jstr "1 NOS",
    rateText := jstr "1.00/NOS", amountText := jstr "0.004" }

/-- A well-formed entry. -/
def fxEntryGood : InvEntryXml :=
  { stockItemName := jstr "Widget", actualQty := jstr "10 NOS",
    rateText := jstr "25.00/NOS", amountText := jstr "250.00" }

/-- An entry whose RATE text is non-numeric. -/
def fxEntryBadRate : InvEntryXml :=
  { stockItemName := jstr "B", actualQty := jstr "1 NOS",
    rateText := jstr "abc", amountText := jstr "5.00" }

/-- Counterexample voucher for the subtotal claim: two 0.004 amounts. -/
def fxVoucherC1 : VoucherXml :=
  { emptyVoucher with
    voucherTypeName := jstr "Misc"
    allInventoryEntries := [fxEntry004, fxEntry004] }

/-- Counterexample voucher for the item-selection claim: the voucher
type contains both SALES and STOCK JOURNAL. -/
def fxVoucherC2 : VoucherXml :=
  { emptyVoucher with
    voucherTypeName := jstr "SALES STOCK JOURNAL"
    allInventoryEntries := [fxEntryGood] }

/-- Witness voucher for the item-selection claim: a sales order with an
empty all-inventory-entries list and a non-empty out-going list. -/
def fxVoucherC2w : VoucherXml :=
  { emptyVoucher with
    voucherTypeName := jstr "SALES ORDER"
    inventoryEntriesOut := [fxEntryGood] }

/-- Counterexample voucher for the monetary-strings claim: a sale whose
single entry has a non-numeric RATE text. -/
def fxVoucherC3 : VoucherXml :=
  { emptyVoucher with
    voucherTypeName := jstr "SALES"
    allInventoryEntries := [fxEntryBadRate] }

/-- Witness voucher for the monetary-strings claim: clean entry, a tax
ledger and a party ledger. -/
def fxVoucherC3w : VoucherXml :=
  { emptyVoucher with
    voucherTypeName := jstr "SALES"
    allInventoryEntries := [fxEntryGood]
    ledgerEntries :=
      [{ ledgerName := jstr "IGST", amountText := jstr "45.00", isPartyLedger := jstr "No" },
       { ledgerName := jstr "Buyer", amountText := jstr "295.00", isPartyLedger := jstr "Yes" }] }

/-- Wrap a voucher into a parsed document. -/
def fxDoc (v : VoucherXml) : XmlDoc :=
  { svCurrentCompany := some (jstr "ACME"), voucher := some v }

/-- Concrete totals from the tax-line suppression test of the
specification: cgst 0.00, sgst 0.00, igst 450.00. -/
def fxTotalsC4 : Totals :=
  { subtotal := .f2 0, igst := .f2 45000, cgst := .f2 0, sgst := .f2 0,
    total := .f2 45000 }

/-- Concrete settings with a single-character separator. -/
def fxSettings : Settings :=
  { headerAlignment := jstr "center", lineSeparator := jstr "-",
    labelBold := true, valueBold := false }

/-! ## Definitions used only to state the claims -/

/-- The text payloads of the print lines of an op sequence, in order. -/
def lineTexts (ops : List Op) : List JStr :=
  ops.filterMap (fun o => match o with | .text s => some s | _ => none)

/-- The space-separated words of a string: maximal runs of non-space
characters. Used to state the wrapping claim. -/
def wordsOf : JStr → List JStr
  | [] => []
  | c :: cs =>
    if c = ' ' then wordsOf cs
    else (c :: cs.takeWhile (· ≠ ' ')) :: wordsOf (cs.dropWhile (· ≠ ' '))
termination_by l => l.length
decreasing_by
  all_goals
    have h1 : (as.dropWhile (· ≠ ' ')).length ≤ as.length :=
      (List.dropWhile_sublist _).length_le
    simp only [List.length_cons]
    omega

/-- The claimed well-formedness of a monetary string: it parses as a
non-negative decimal with exactly 2 fraction digits. A toFixed(2)
result satisfies this exactly when it is not the NaN string and its
value is non-negative. -/
def isMoney2 : Fixed2 → Prop
  | .nan => False
  | .f2 c => 0 ≤ c

/-- The cents carried by a non-NaN toFixed(2) string. -/
def f2Cents : Fixed2 → Int
  | .nan => 0
  | .f2 c => c

/-- A JavaScript number that is an actual non-negative number. -/
def isNonnegNum : JNum → Prop
  | .nan => False
  | .num q => 0 ≤ q

instance : DecidablePred isNonnegNum := by
  intro x
  cases x <;> simp [isNonnegNum] <;> infer_instance

/-- A JavaScript number that is not NaN. -/
def isNum (x : JNum) : Prop := x ≠ .nan

instance (x : JNum) : Decidable (isNum x) := by
  unfold isNum
  infer_instance

/-- Modelled from the claim wording for the subtotal: the raw entry
amounts (absolute values) summed first, the sum formatted to 2 fraction
digits afterwards, with no per-item rounding. Used to compare the
claimed subtotal with the one the code computes. -/
def claimedRawSubtotal (es : List InvEntryXml) : Fixed2 :=
  toFixed2 (es.foldl (fun s e => jnumAdd s (jnumAbs (amountNum e))) (.num 0))

/-! ## Bridge lemmas for the kernel-computable rational helpers -/

theorem qAdd_eq (a b : ℚ) : qAdd a b = a + b := by
  unfold qAdd
  conv_rhs => rw [← Rat.num_div_den a, ← Rat.num_div_den b]
  rw [div_add_div _ _ (by exact_mod_cast a.den_nz) (by exact_mod_cast b.den_nz),
    Rat.divInt_eq_div]
  push_cast
  ring_nf

theorem qMul_eq (a b : ℚ) : qMul a b = a * b := by
  unfold qMul
  conv_rhs => rw [← Rat.num_div_den a, ← Rat.num_div_den b]
  rw [div_mul_div_comm, Rat.divInt_eq_div]
  push_cast
  ring_nf

theorem qDiv_eq (a b : ℚ) : qDiv a b = a / b := by
  unfold qDiv
  by_cases hb : b = 0
  · subst hb
    simp
  · have had : ((a.den : ℚ)) ≠ 0 := by exact_mod_cast a.den_nz
    have hbd : ((b.den : ℚ)) ≠ 0 := by exact_mod_cast b.den_nz
    have hbn : ((b.num : ℚ)) ≠ 0 := by exact_mod_cast Rat.num_ne_zero.mpr hb
    have ha : (a.num : ℚ) = a * a.den := by
      have h := Rat.num_div_den a
      rw [div_eq_iff had] at h
      exact h
    have hbq : (b.num : ℚ) = b * b.den := by
      have h := Rat.num_div_den b
      rw [div_eq_iff hbd] at h
      exact h
    rw [Rat.divInt_eq_div]
    push_cast
    rw [div_eq_div_iff (mul_ne_zero had hbn) hb, ha, hbq]
    ring

/-! ## C10: null document -/

/-- C10: when the command generator is invoked with an absent (null)
document, it returns an empty byte buffer, with no initialize, feed or
cut framing bytes. -/
theorem null_document_empty_stream (st : Settings) :
    generateEscPosCommands none st = [] := rfl

/-! ## C6: trailing feed and cut -/

/-- C6: for every document and settings, the generated stream ends with
exactly five line-feed bytes followed by the full-cut command GS V 0. -/
theorem trailing_feed_and_cut (inv : Invoice) (st : Settings) :
    [0x0A, 0x0A, 0x0A, 0x0A, 0x0A, 0x1D, 0x56, 0x00] <:+
      generateEscPosCommands (some inv) st := by
  obtain ⟨front, hfront⟩ : ∃ front, genOps inv st =
      front ++ [Op.raw [0x0A, 0x0A, 0x0A, 0x0A, 0x0A], Op.raw [0x1D, 0x56, 0x00]] :=
    ⟨[Op.raw [0x1B, 0x40]] ++ logoOps st ++ companyOps inv st ++ headingOps inv st ++
      orderOps inv st ++ partyOps inv ++ itemsHeaderOps st ++ itemsOps inv ++
      totalsOps inv.totals st ++ amountWordsOps inv ++ narrationOps inv st ++
      termsOps inv st ++ signatoryOps inv ++ thanksOps,
      by simp [genOps]⟩
  show _ <:+ ((genOps inv st).map flattenOp).flatten
  rw [hfront, List.map_append, List.flatten_append]
  exact List.suffix_append _ _

/-! ## C8: right-aligned item quantity line -/

/-- C8: for every item, the second item row consists of the quantity
line text left-padded with spaces to the 42-column width: its length is
the maximum of 42 and the text length (so an over-long text is emitted
untruncated with the padding clamped to zero), the text is a suffix,
everything before it is spaces, and the item block emits it as a single
line right before the blank spacer line. -/
theorem item_qty_line_right_aligned (it : Item) :
    (itemRow2 it).length = max 42 (qtyRateAmountText it).length ∧
    qtyRateAmountText it <:+ itemRow2 it ∧
    (∀ c ∈ (itemRow2 it).take ((itemRow2 it).length - (qtyRateAmountText it).length),
      c = ' ') ∧
    ∃ pre, itemOps it = pre ++ [.text (itemRow2 it), .text []] := by
  refine ⟨?_, ?_, ?_, ?_⟩
  · simp only [itemRow2, List.length_append, List.length_replicate]
    omega
  · exact List.suffix_append _ _
  · intro c hc
    have hlen : (itemRow2 it).length - (qtyRateAmountText it).length =
        (max 0 (42 - ((qtyRateAmountText it).length : Int))).toNat := by
      simp only [itemRow2, List.length_append, List.length_replicate]
      omega
    rw [hlen] at hc
    simp only [itemRow2] at hc
    rw [List.take_append_of_le_length (by simp)] at hc
    have := List.eq_of_mem_replicate (List.mem_of_mem_take hc)
    exact this
  · exact ⟨[.bold true,
      .text (padEnd (natDigits it.sNo) 3 ++ [' '] ++ it.name.take 38),
      .bold false] ++
      (if 38 < it.name.length then wrapNameTail (it.name.drop 38) else []),
      by simp [itemOps, List.append_assoc]⟩

/-! ## C9: extraction is total-or-failure -/

/-- C9: the extractor returns a document exactly when DOM parsing
succeeded and the VOUCHER element is present, and then the returned
document is the complete built invoice; a parse error or a missing
voucher yields the single failure value, so no partial document is
ever returned. -/
theorem extraction_total_or_failure (inp : XmlInput) :
    ((parseTallyXML inp).isSome ↔ ∃ d v, inp = .ok d ∧ d.voucher = some v) ∧
    (∀ d v, inp = .ok d → d.voucher = some v →
      parseTallyXML inp = some (buildInvoice d v)) := by
  constructor
  · cases inp with
    | parseError m => simp [parseTallyXML]
    | ok d =>
      cases hv : d.voucher with
      | none => simp [parseTallyXML, hv]
      | some v => simp [parseTallyXML, hv]
  · intro d v hinp hv
    subst hinp
    simp [parseTallyXML, hv]

/-- Witness for C9 at concrete inputs: a parse error maps to the
failure value and a parsed document with a voucher maps to the full
invoice. -/
theorem extraction_total_or_failure_witness :
    parseTallyXML (.ok (fxDoc fxVoucherC3w)) =
      some (buildInvoice (fxDoc fxVoucherC3w) fxVoucherC3w) ∧
    parseTallyXML (.parseError (jstr "bad")) = none := by
  constructor
  · exact (extraction_total_or_failure (.ok (fxDoc fxVoucherC3w))).2
      (fxDoc fxVoucherC3w) fxVoucherC3w rfl rfl
  · have h := (extraction_total_or_failure (.parseError (jstr "bad"))).1
    cases hp : parseTallyXML (.parseError (jstr "bad")) with
    | none => rfl
    | some i =>
      obtain ⟨d, v, hd, -⟩ := h.mp (by rw [hp]; rfl)
      exact absurd hd (by simp)

/-! ## C4: tax line suppression and totals order -/

/-- Two character lists cannot be in the prefix relation when they
differ at the first or second character. -/
theorem not_prefix_two {a b c d : Char} {l₁ l₂ : List Char}
    (h : a ≠ c ∨ b ≠ d) : ¬ (a :: b :: l₁ <+: c :: d :: l₂) := by
  intro hp
  rw [List.cons_prefix_cons] at hp
  obtain ⟨h1, hp⟩ := hp
  rw [List.cons_prefix_cons] at hp
  rcases h with h | h
  · exact h h1
  · exact h hp.1

/-- Repeating a one-character string yields a replicate. -/
theorem strRepeat_singleton (c : Char) (n : Nat) :
    strRepeat [c] n = List.replicate n c := by
  induction n with
  | zero => rfl
  | succ n ih =>
    simp only [strRepeat, List.replicate_succ, List.flatten_cons] at ih ⊢
    rw [ih]
    rfl

/-- With a separator of at most one character, the separator line is a
run of one repeated character. -/
theorem sepLine_replicate (st : Settings) (hsep : st.lineSeparator.length ≤ 1) :
    ∃ c, sepLine st = List.replicate 42 c := by
  unfold sepLine sepChar jsOrStr
  cases hls : st.lineSeparator with
  | nil => exact ⟨'-', by simp [strRepeat_singleton, jstr]⟩
  | cons c rest =>
    have hr : rest = [] := by
      rw [hls] at hsep
      simp only [List.length_cons] at hsep
      exact List.length_eq_zero.mp (by omega)
    subst hr
    exact ⟨c, by simp [strRepeat_singleton]⟩

/-- A word of two distinct leading characters is never a prefix of the
separator line. -/
theorem not_prefix_sepLine (st : Settings) (hsep : st.lineSeparator.length ≤ 1)
    {a b : Char} {l : List Char} (hab : a ≠ b) :
    ¬ (a :: b :: l <+: sepLine st) := by
  obtain ⟨c, hc⟩ := sepLine_replicate st hsep
  rw [hc]
  rw [show List.replicate 42 c = c :: c :: List.replicate 40 c from rfl]
  intro hp
  rw [List.cons_prefix_cons] at hp
  obtain ⟨rfl, hp⟩ := hp
  rw [List.cons_prefix_cons] at hp
  exact hab hp.1.symm

/-- C4: with a separator of at most one character, the print lines of
the totals section are, in order: the separator line, the subtotal
line, then a CGST line exactly when the CGST value is strictly
positive, likewise SGST then IGST, then the emphasized total line and a
blank line; and a line starting with the CGST (resp. SGST, IGST) label
exists in the section exactly when that value is strictly positive. -/
theorem tax_lines_iff_positive (t : Totals) (st : Settings)
    (hsep : st.lineSeparator.length ≤ 1) :
    (lineTexts (totalsOps t st) =
      [sepLine st, jstr "Sub Total: " ++ jsOrStr (f2str t.subtotal) (jstr "0.00")] ++
      (if jnumPos (fixed2Num t.cgst) then [jstr "CGST: " ++ f2str t.cgst] else []) ++
      (if jnumPos (fixed2Num t.sgst) then [jstr "SGST: " ++ f2str t.sgst] else []) ++
      (if jnumPos (fixed2Num t.igst) then [jstr "IGST: " ++ f2str t.igst] else []) ++
      [jstr "TOTAL: Rs. " ++ jsOrStr (f2str t.total) (jstr "0.00"), []]) ∧
    ((∃ s ∈ lineTexts (totalsOps t st), jstr "CGST: " <+: s) ↔ jnumPos (fixed2Num t.cgst)) ∧
    ((∃ s ∈ lineTexts (totalsOps t st), jstr "SGST: " <+: s) ↔ jnumPos (fixed2Num t.sgst)) ∧
    ((∃ s ∈ lineTexts (totalsOps t st), jstr "IGST: " <+: s) ↔ jnumPos (fixed2Num t.igst)) := by
  have hlines : lineTexts (totalsOps t st) =
      [sepLine st, jstr "Sub Total: " ++ jsOrStr (f2str t.subtotal) (jstr "0.00")] ++
      (if jnumPos (fixed2Num t.cgst) then [jstr "CGST: " ++ f2str t.cgst] else []) ++
      (if jnumPos (fixed2Num t.sgst) then [jstr "SGST: " ++ f2str t.sgst] else []) ++
      (if jnumPos (fixed2Num t.igst) then [jstr "IGST: " ++ f2str t.igst] else []) ++
      [jstr "TOTAL: Rs. " ++ jsOrStr (f2str t.total) (jstr "0.00"), []] := by
    by_cases hc : jnumPos (fixed2Num t.cgst) <;>
      by_cases hs : jnumPos (fixed2Num t.sgst) <;>
        by_cases hi : jnumPos (fixed2Num t.igst) <;>
          simp [totalsOps, lineTexts, hc, hs, hi]
  refine ⟨hlines, ?_, ?_, ?_⟩
  · have h1 : ¬ (jstr "CGST: " <+: sepLine st) := not_prefix_sepLine st hsep (by decide)
    have h2 : ¬ (jstr "CGST: " <+:
        jstr "Sub Total: " ++ jsOrStr (f2str t.subtotal) (jstr "0.00")) :=
      not_prefix_two (by decide)
    have h3 : ¬ (jstr "CGST: " <+: jstr "SGST: " ++ f2str t.sgst) :=
      not_prefix_two (by decide)
    have h4 : ¬ (jstr "CGST: " <+: jstr "IGST: " ++ f2str t.igst) :=
      not_prefix_two (by decide)
    have h5 : ¬ (jstr "CGST: " <+:
        jstr "TOTAL: Rs. " ++ jsOrStr (f2str t.total) (jstr "0.00")) :=
      not_prefix_two (by decide)
    have h6 : ¬ (jstr "CGST: " <+: ([] : JStr)) := by decide
    rw [hlines]
    by_cases hc : jnumPos (fixed2Num t.cgst) <;>
      by_cases hs : jnumPos (fixed2Num t.sgst) <;>
        by_cases hi : jnumPos (fixed2Num t.igst) <;>
          simp [hc, hs, hi, h1, h2, h3, h4, h5, h6, List.prefix_append]
  · have h1 : ¬ (jstr "SGST: " <+: sepLine st) := not_prefix_sepLine st hsep (by decide)
    have h2 : ¬ (jstr "SGST: " <+:
        jstr "Sub Total: " ++ jsOrStr (f2str t.subtotal) (jstr "0.00")) :=
      not_prefix_two (by decide)
    have h3 : ¬ (jstr "SGST: " <+: jstr "CGST: " ++ f2str t.cgst) :=
      not_prefix_two (by decide)
    have h4 : ¬ (jstr "SGST: " <+: jstr "IGST: " ++ f2str t.igst) :=
      not_prefix_two (by decide)
    have h5 : ¬ (jstr "SGST: " <+:
        jstr "TOTAL: Rs. " ++ jsOrStr (f2str t.total) (jstr "0.00")) :=
      not_prefix_two (by decide)
    have h6 : ¬ (jstr "SGST: " <+: ([] : JStr)) := by decide
    rw [hlines]
    by_cases hc : jnumPos (fixed2Num t.cgst) <;>
      by_cases hs : jnumPos (fixed2Num t.sgst) <;>
        by_cases hi : jnumPos (fixed2Num t.igst) <;>
          simp [hc, hs, hi, h1, h2, h3, h4, h5, h6, List.prefix_append]
  · have h1 : ¬ (jstr "IGST: " <+: sepLine st) := not_prefix_sepLine st hsep (by decide)
    have h2 : ¬ (jstr "IGST: " <+:
        jstr "Sub Total: " ++ jsOrStr (f2str t.subtotal) (jstr "0.00")) :=
      not_prefix_two (by decide)
    have h3 : ¬ (jstr "IGST: " <+: jstr "CGST: " ++ f2str t.cgst) :=
      not_prefix_two (by decide)
    have h4 : ¬ (jstr "IGST: " <+: jstr "SGST: " ++ f2str t.sgst) :=
      not_prefix_two (by decide)
    have h5 : ¬ (jstr "IGST: " <+:
        jstr "TOTAL: Rs. " ++ jsOrStr (f2str t.total) (jstr "0.00")) :=
      not_prefix_two (by decide)
    have h6 : ¬ (jstr "IGST: " <+: ([] : JStr)) := by decide
    rw [hlines]
    by_cases hc : jnumPos (fixed2Num t.cgst) <;>
      by_cases hs : jnumPos (fixed2Num t.sgst) <;>
        by_cases hi : jnumPos (fixed2Num t.igst) <;>
          simp [hc, hs, hi, h1, h2, h3, h4, h5, h6, List.prefix_append]

/-- Witness for C4 at the totals of the specification test: an IGST
line is present while CGST and SGST lines are absent. -/
theorem tax_lines_iff_positive_witness :
    (∃ s ∈ lineTexts (totalsOps fxTotalsC4 fxSettings), jstr "IGST: " <+: s) ∧
    ¬ (∃ s ∈ lineTexts (totalsOps fxTotalsC4 fxSettings), jstr "CGST: " <+: s) ∧
    ¬ (∃ s ∈ lineTexts (totalsOps fxTotalsC4 fxSettings), jstr "SGST: " <+: s) := by
  have h := tax_lines_iff_positive fxTotalsC4 fxSettings (by decide)
  refine ⟨h.2.2.2.mpr (by decide), ?_, ?_⟩
  · intro hex
    exact absurd (h.2.1.mp hex) (by decide)
  · intro hex
    exact absurd (h.2.2.1.mp hex) (by decide)

/-! ## C1: subtotal versus raw amounts -/

/-- Projection of the built invoice: the item list. -/
theorem buildInvoice_items (d : XmlDoc) (v : VoucherXml) :
    (buildInvoice d v).items = assignSNo (selectItems v) := rfl

/-- Projection of the built invoice: the subtotal is the toFixed(2)
rendering of the reduce over the final item list. -/
theorem buildInvoice_subtotal (d : XmlDoc) (v : VoucherXml) :
    (buildInvoice d v).totals.subtotal =
      toFixed2 (subtotalNum (assignSNo (selectItems v))) := rfl

/-- The subtotal reduce, on items whose amounts are all numeric, sums
the item cents exactly. -/
theorem subtotal_fold_cents (l : List Item) (a : ℚ)
    (h : ∀ it ∈ l, it.amount ≠ Fixed2.nan) :
    l.foldl (fun s it => jnumAdd s (fixed2Num it.amount)) (.num a) =
      .num (a + (((l.map (fun it => f2Cents it.amount)).sum : Int) : ℚ) / 100) := by
  induction l generalizing a with
  | nil => simp
  | cons it l ih =>
    obtain ⟨c, hc⟩ : ∃ c, it.amount = Fixed2.f2 c := by
      cases hit : it.amount with
      | nan => exact absurd hit (h it (by simp))
      | f2 c => exact ⟨c, rfl⟩
    have hrest : ∀ x ∈ l, x.amount ≠ Fixed2.nan := fun x hx => h x (by simp [hx])
    rw [List.foldl_cons]
    have hacc : jnumAdd (JNum.num a) (fixed2Num it.amount) =
        JNum.num (qAdd a (Rat.divInt c 100)) := by
      rw [hc]
      rfl
    rw [hacc, ih _ hrest, List.map_cons, List.sum_cons, qAdd_eq, Rat.divInt_eq_div,
      hc]
    congr 1
    simp only [f2Cents]
    push_cast
    ring

/-- Adding one half to an integer and taking the floor is the
identity. -/
theorem floor_int_add_half (z : Int) : ⌊(z : ℚ) + 1 / 2⌋ = z := by
  rw [add_comm, Int.floor_add_int]
  norm_num

/-- Rounding an exact number of cents to 2 fraction digits is exact. -/
theorem jsFix2_int_div_100 (s : Int) : jsFix2 ((s : ℚ) / 100) = s := by
  unfold jsFix2
  by_cases hs : ((s : ℚ) / 100) < 0
  · rw [if_pos hs, qAdd_eq, qMul_eq, Rat.divInt_eq_div]
    push_cast
    rw [show (100 : ℚ) * -((s : ℚ) / 100) = ((-s : ℤ) : ℚ) by push_cast; ring]
    rw [floor_int_add_half]
    omega
  · rw [if_neg hs, qAdd_eq, qMul_eq, Rat.divInt_eq_div]
    push_cast
    rw [show (100 : ℚ) * ((s : ℚ) / 100) = ((s : ℤ) : ℚ) by push_cast; ring]
    rw [floor_int_add_half]

/-- C1 counterexample: a voucher with two raw amounts 0.004. Each
amount is rounded to the 2-digit string 0.00 at extraction, and the
extractor sums those rounded amounts, giving subtotal 0.00; summing the
raw amounts first and formatting afterwards, as the claim states, would
give 0.01. -/
theorem subtotal_not_sum_of_raw_amounts :
    (parseTallyXML (.ok (fxDoc fxVoucherC1))).map (fun i => i.totals.subtotal) =
      some (Fixed2.f2 0) ∧
    claimedRawSubtotal fxVoucherC1.allInventoryEntries = Fixed2.f2 1 ∧
    Fixed2.f2 0 ≠ Fixed2.f2 1 := by
  exact ⟨by decide, by decide, by decide⟩

/-- C1 amended: for every extracted document, the subtotal is the sum
of the item amounts as stored on the items, each already rounded to 2
decimals at extraction, with the sum formatted to 2 fraction digits;
when every item amount is numeric, the subtotal is exactly the sum of
the item amount cents. -/
theorem subtotal_sums_extracted_amounts (inp : XmlInput) (inv : Invoice)
    (h : parseTallyXML inp = some inv) :
    inv.totals.subtotal = toFixed2 (subtotalNum inv.items) ∧
    ((∀ it ∈ inv.items, it.amount ≠ Fixed2.nan) →
      inv.totals.subtotal =
        Fixed2.f2 ((inv.items.map (fun it => f2Cents it.amount)).sum)) := by
  obtain ⟨d, v, hv, rfl⟩ : ∃ d v, d.voucher = some v ∧ inv = buildInvoice d v := by
    cases inp with
    | parseError m => exact absurd h (by simp [parseTallyXML])
    | ok d =>
      cases hv : d.voucher with
      | none => rw [parseTallyXML, hv] at h; exact absurd h (by simp)
      | some v =>
        rw [parseTallyXML, hv] at h
        exact ⟨d, v, hv, (Option.some_injective _ h).symm⟩
  constructor
  · rw [buildInvoice_subtotal, buildInvoice_items]
  · intro hnan
    rw [buildInvoice_items] at hnan
    rw [buildInvoice_subtotal, buildInvoice_items, subtotalNum,
      subtotal_fold_cents _ 0 hnan]
    rw [toFixed2]
    rw [zero_add, jsFix2_int_div_100]

/-- Witness for the amended C1 at a concrete extraction: the subtotal
cents equal the sum of the item cents. -/
theorem subtotal_sums_extracted_amounts_witness :
    (buildInvoice (fxDoc fxVoucherC1) fxVoucherC1).totals.subtotal =
      Fixed2.f2 (((buildInvoice (fxDoc fxVoucherC1) fxVoucherC1).items.map
        (fun it => f2Cents it.amount)).sum) :=
  (subtotal_sums_extracted_amounts (.ok (fxDoc fxVoucherC1))
    (buildInvoice (fxDoc fxVoucherC1) fxVoucherC1) rfl).2 (by decide)

/-! ## C2: item-list selection for sales vouchers -/

/-- C2 counterexample: the voucher type SALES STOCK JOURNAL contains
SALES and the all-inventory-entries list parses to one item, yet the
extractor returns no items: the STOCK JOURNAL branch takes precedence
and reads the empty out-going list. -/
theorem sales_items_selection_cex :
    jsIncludes (jsUpper (jsGet fxVoucherC2.voucherTypeName)) (jstr "SALES") ∧
    parseItemsFromList fxVoucherC2.allInventoryEntries ≠ [] ∧
    (parseTallyXML (.ok (fxDoc fxVoucherC2))).map Invoice.items = some [] := by
  refine ⟨by decide, by decide, by decide⟩

/-- C2 amended: for every parsed voucher whose upper-cased type
contains SALES ORDER or SALES but not STOCK JOURNAL, and whose object
view does not contain CONSUMPTION VOUCHER VIEW: when the
all-inventory-entries list yields no items the extractor returns the
renumbered items of the out-going list, otherwise only the renumbered
items of the all-inventory-entries list. -/
theorem sales_items_selection (d : XmlDoc) (v : VoucherXml)
    (hv : d.voucher = some v)
    (hsales : jsIncludes (jsUpper (jsGet v.voucherTypeName)) (jstr "SALES ORDER") ∨
      jsIncludes (jsUpper (jsGet v.voucherTypeName)) (jstr "SALES"))
    (hnsj : ¬ jsIncludes (jsUpper (jsGet v.voucherTypeName)) (jstr "STOCK JOURNAL"))
    (hnocv : ¬ jsIncludes (jsUpper (jsGet v.objView)) (jstr "CONSUMPTION VOUCHER VIEW")) :
    (parseTallyXML (.ok d)).map Invoice.items =
      some (assignSNo (if parseItemsFromList v.allInventoryEntries = []
        then parseItemsFromList v.inventoryEntriesOut
        else parseItemsFromList v.allInventoryEntries)) := by
  rw [parseTallyXML, hv]
  show some ((buildInvoice d v).items) = _
  rw [buildInvoice_items]
  congr 2
  unfold selectItems
  rw [if_neg (not_or.mpr ⟨hnsj, hnocv⟩), if_pos hsales]
  simp only [List.length_eq_zero]

/-- Witness for the amended C2: a SALES ORDER voucher with an empty
all-inventory-entries list and one out-going entry yields exactly the
renumbered out-going item. -/
theorem sales_items_selection_witness :
    (parseTallyXML (.ok (fxDoc fxVoucherC2w))).map Invoice.items =
      some (assignSNo (parseItemsFromList fxVoucherC2w.inventoryEntriesOut)) := by
  rw [sales_items_selection (fxDoc fxVoucherC2w) fxVoucherC2w rfl
    (Or.inl (by decide)) (by decide) (by decide)]
  decide

/-! ## C3: well-formedness of monetary strings -/

/-- Every parsed item comes from an entry of the given list. -/
theorem mem_parseItemsFromList {it : Item} {l : List InvEntryXml}
    (h : it ∈ parseItemsFromList l) : ∃ e ∈ l, it = mkItem e := by
  unfold parseItemsFromList at h
  split at h
  · simp at h
  · obtain ⟨e, he, rfl⟩ := List.mem_map.mp h
    exact ⟨e, he, rfl⟩

/-- Every selected item comes from one of the three entry lists. -/
theorem mem_selectItems {it : Item} {v : VoucherXml} (h : it ∈ selectItems v) :
    ∃ e ∈ v.allInventoryEntries ++ v.inventoryEntriesIn ++ v.inventoryEntriesOut,
      it = mkItem e := by
  unfold selectItems at h
  by_cases h1 : jsIncludes (jsUpper (jsGet v.voucherTypeName)) (jstr "STOCK JOURNAL") ∨
      jsIncludes (jsUpper (jsGet v.objView)) (jstr "CONSUMPTION VOUCHER VIEW")
  · rw [if_pos h1] at h
    obtain ⟨e, he, rfl⟩ := mem_parseItemsFromList h
    exact ⟨e, by simp [he], rfl⟩
  · rw [if_neg h1] at h
    by_cases h2 : jsIncludes (jsUpper (jsGet v.voucherTypeName)) (jstr "SALES ORDER") ∨
        jsIncludes (jsUpper (jsGet v.voucherTypeName)) (jstr "SALES")
    · rw [if_pos h2] at h
      by_cases h3 : (parseItemsFromList v.allInventoryEntries).length = 0
      · rw [if_pos h3] at h
        obtain ⟨e, he, rfl⟩ := mem_parseItemsFromList h
        exact ⟨e, by simp [he], rfl⟩
      · rw [if_neg h3] at h
        obtain ⟨e, he, rfl⟩ := mem_parseItemsFromList h
        exact ⟨e, by simp [he], rfl⟩
    · rw [if_neg h2] at h
      by_cases h4 : jsIncludes (jsUpper (jsGet v.voucherTypeName)) (jstr "MATERIAL OUT") ∨
          jsIncludes (jsUpper (jsGet v.voucherTypeName)) (jstr "DELIVERY")
      · rw [if_pos h4] at h
        by_cases h5 : (parseItemsFromList v.inventoryEntriesOut).length = 0
        · rw [if_pos h5] at h
          obtain ⟨e, he, rfl⟩ := mem_parseItemsFromList h
          exact ⟨e, by simp [he], rfl⟩
        · rw [if_neg h5] at h
          obtain ⟨e, he, rfl⟩ := mem_parseItemsFromList h
          exact ⟨e, by simp [he], rfl⟩
      · rw [if_neg h4] at h
        rcases List.mem_append.mp h with h | h
        · rcases List.mem_append.mp h with h | h
          · obtain ⟨e, he, rfl⟩ := mem_parseItemsFromList h
            exact ⟨e, by simp [he], rfl⟩
          · obtain ⟨e, he, rfl⟩ := mem_parseItemsFromList h
            exact ⟨e, by simp [he], rfl⟩
        · obtain ⟨e, he, rfl⟩ := mem_parseItemsFromList h
          exact ⟨e, by simp [he], rfl⟩

/-- Renumbering keeps each item there with its rate and amount. -/
theorem mem_assignSNo {it : Item} {l : List Item} (h : it ∈ assignSNo l) :
    ∃ it0 ∈ l, it.rate = it0.rate ∧ it.amount = it0.amount := by
  unfold assignSNo at h
  obtain ⟨⟨i, it0⟩, hmem, rfl⟩ := List.mem_map.mp h
  refine ⟨it0, ?_, rfl, rfl⟩
  have h2 := List.mem_map_of_mem Prod.snd hmem
  rw [List.enum_map_snd] at h2
  exact h2

/-- toFixed(2) of a non-negative number is a well-formed non-negative
monetary string. -/
theorem toFixed2_money_of_nonneg {x : JNum} (h : isNonnegNum x) :
    isMoney2 (toFixed2 x) := by
  cases x with
  | nan => exact absurd h (by simp [isNonnegNum])
  | num q =>
    have hq : (0 : ℚ) ≤ q := h
    show 0 ≤ jsFix2 q
    unfold jsFix2
    rw [if_neg (not_lt.mpr hq), qAdd_eq, qMul_eq, Rat.divInt_eq_div]
    apply Int.floor_nonneg.mpr
    push_cast
    positivity

/-- toFixed(2) of the absolute value of a number is a well-formed
non-negative monetary string. -/
theorem toFixed2_money_of_abs {x : JNum} (h : isNum x) :
    isMoney2 (toFixed2 (jnumAbs x)) := by
  cases x with
  | nan => exact absurd rfl h
  | num q =>
    apply toFixed2_money_of_nonneg
    show (0 : ℚ) ≤ |q|
    positivity

/-- The subtotal reduce over items with well-formed amounts is a
non-negative number. -/
theorem subtotalNum_nonneg {l : List Item} (h : ∀ it ∈ l, isMoney2 it.amount) :
    isNonnegNum (subtotalNum l) := by
  have hnan : ∀ it ∈ l, it.amount ≠ Fixed2.nan := by
    intro it hit hcon
    exact (hcon ▸ h it hit : isMoney2 Fixed2.nan)
  unfold subtotalNum
  rw [subtotal_fold_cents l 0 hnan]
  show (0 : ℚ) ≤ 0 + (((l.map (fun it => f2Cents it.amount)).sum : Int) : ℚ) / 100
  have hsum : (0 : Int) ≤ (l.map (fun it => f2Cents it.amount)).sum := by
    apply List.sum_nonneg
    intro x hx
    obtain ⟨it, hit, rfl⟩ := List.mem_map.mp hx
    cases hc : it.amount with
    | nan => exact absurd hc (hnan it hit)
    | f2 c =>
      have := h it hit
      rw [hc] at this
      simpa [f2Cents] using this
  have : (0 : ℚ) ≤ (((l.map (fun it => f2Cents it.amount)).sum : Int) : ℚ) := by
    exact_mod_cast hsum
  rw [zero_add]
  positivity

/-- A ledger lookup is a non-negative number when every ledger amount
is. -/
theorem findAmount_nonneg {v : VoucherXml} (name : JStr)
    (hL : ∀ e ∈ v.ledgerEntries, isNonnegNum (ledgerRawNum e)) :
    isNonnegNum (findAmount v name) := by
  unfold findAmount
  cases hf : v.ledgerEntries.find? (fun e => jsGet e.ledgerName = name) with
  | none => show (0 : ℚ) ≤ 0; exact le_refl 0
  | some e => exact hL e (List.mem_of_find?_eq_some hf)

/-- The or-else fallback of two non-negative numbers is non-negative. -/
theorem jnumOr_nonneg {a b : JNum} (ha : isNonnegNum a) (hb : isNonnegNum b) :
    isNonnegNum (jnumOr a b) := by
  unfold jnumOr
  split <;> assumption

/-- C3 counterexample: a voucher the extractor accepts whose entry has
the non-numeric RATE text abc; the resulting item rate is the NaN
string, which does not parse as a non-negative 2-fraction-digit
decimal. -/
theorem money_strings_cex :
    (parseTallyXML (.ok (fxDoc fxVoucherC3))).map (fun i => i.items.map Item.rate) =
      some [Fixed2.nan] ∧
    ¬ isMoney2 Fixed2.nan := by
  exact ⟨by decide, fun h => h⟩

/-- C3 amended: for every accepted input whose entry RATE texts parse
as non-negative numbers, whose entry AMOUNT texts parse as numbers and
whose ledger AMOUNT texts parse as non-negative numbers, all monetary
strings of the extracted invoice (each item rate and amount and every
totals field) are non-negative decimals with exactly 2 fraction
digits. -/
theorem money_strings_wellformed (d : XmlDoc) (v : VoucherXml) (inv : Invoice)
    (h : parseTallyXML (.ok d) = some inv) (hv : d.voucher = some v)
    (hE : ∀ e ∈ v.allInventoryEntries ++ v.inventoryEntriesIn ++ v.inventoryEntriesOut,
      isNonnegNum (rateNum e) ∧ isNum (amountNum e))
    (hL : ∀ e ∈ v.ledgerEntries,
      isNonnegNum (ledgerRawNum e) ∧ isNum (ledgerTrimNum e)) :
    (∀ it ∈ inv.items, isMoney2 it.rate ∧ isMoney2 it.amount) ∧
    isMoney2 inv.totals.subtotal ∧ isMoney2 inv.totals.cgst ∧
    isMoney2 inv.totals.sgst ∧ isMoney2 inv.totals.igst ∧
    isMoney2 inv.totals.total := by
  rw [parseTallyXML, hv] at h
  replace h := (Option.some_injective _ h).symm
  subst h
  have hitems : ∀ it ∈ (buildInvoice d v).items, isMoney2 it.rate ∧ isMoney2 it.amount := by
    intro it hit
    rw [buildInvoice_items] at hit
    obtain ⟨it0, hit0, hr, ha⟩ := mem_assignSNo hit
    obtain ⟨e, he, rfl⟩ := mem_selectItems hit0
    rw [hr, ha]
    exact ⟨toFixed2_money_of_nonneg (hE e he).1, toFixed2_money_of_abs (hE e he).2⟩
  refine ⟨hitems, ?_, ?_, ?_, ?_, ?_⟩
  · rw [buildInvoice_subtotal]
    apply toFixed2_money_of_nonneg
    apply subtotalNum_nonneg
    intro it hit
    exact (hitems it (by rw [buildInvoice_items]; exact hit)).2
  · exact toFixed2_money_of_nonneg (findAmount_nonneg _ (fun e he => (hL e he).1))
  · exact toFixed2_money_of_nonneg (jnumOr_nonneg
      (findAmount_nonneg _ (fun e he => (hL e he).1))
      (findAmount_nonneg _ (fun e he => (hL e he).1)))
  · exact toFixed2_money_of_nonneg (findAmount_nonneg _ (fun e he => (hL e he).1))
  · show isMoney2 (buildInvoice d v).totals.total
    have htot : (buildInvoice d v).totals.total =
        (match v.ledgerEntries.find? (fun e => jsGet e.isPartyLedger = jstr "Yes") with
          | some e => toFixed2 (jnumAbs (ledgerTrimNum e))
          | none => toFixed2 (subtotalNum (assignSNo (selectItems v)))) := rfl
    rw [htot]
    cases hf : v.ledgerEntries.find? (fun e => jsGet e.isPartyLedger = jstr "Yes") with
    | none =>
      apply toFixed2_money_of_nonneg
      apply subtotalNum_nonneg
      intro it hit
      exact (hitems it (by rw [buildInvoice_items]; exact hit)).2
    | some e =>
      exact toFixed2_money_of_abs (hL e (List.mem_of_find?_eq_some hf)).2

/-- Witness for the amended C3 at a concrete voucher with a clean
entry, a tax ledger and a party ledger. -/
theorem money_strings_wellformed_witness :
    (∀ it ∈ (buildInvoice (fxDoc fxVoucherC3w) fxVoucherC3w).items,
      isMoney2 it.rate ∧ isMoney2 it.amount) ∧
    isMoney2 (buildInvoice (fxDoc fxVoucherC3w) fxVoucherC3w).totals.subtotal ∧
    isMoney2 (buildInvoice (fxDoc fxVoucherC3w) fxVoucherC3w).totals.cgst ∧
    isMoney2 (buildInvoice (fxDoc fxVoucherC3w) fxVoucherC3w).totals.sgst ∧
    isMoney2 (buildInvoice (fxDoc fxVoucherC3w) fxVoucherC3w).totals.igst ∧
    isMoney2 (buildInvoice (fxDoc fxVoucherC3w) fxVoucherC3w).totals.total :=
  money_strings_wellformed (fxDoc fxVoucherC3w) fxVoucherC3w
    (buildInvoice (fxDoc fxVoucherC3w) fxVoucherC3w) rfl rfl
    (by decide) (by decide)

/-! ## C7: raster conversion -/

/-- One pixel step preserves the bitmap size. -/
theorem rasterStep_length (w : Nat) (pix : Nat → Nat → Pixel) (a : List Nat)
    (yx : Nat × Nat) : (rasterStep w pix a yx).length = a.length := by
  unfold rasterStep
  split
  · exact List.length_set a _ _
  · rfl

/-- The pixel loop preserves the bitmap size. -/
theorem rasterFold_length (w : Nat) (pix : Nat → Nat → Pixel)
    (coords : List (Nat × Nat)) (a : List Nat) :
    (coords.foldl (rasterStep w pix) a).length = a.length := by
  induction coords generalizing a with
  | nil => rfl
  | cons yx coords ih =>
    rw [List.foldl_cons, ih, rasterStep_length]

/-- Reading a byte left untouched by a set. -/
theorem getD_set_ne (l : List Nat) (i j v : Nat) (h : i ≠ j) :
    (l.set i v).getD j 0 = l.getD j 0 := by
  rw [List.getD_eq_getElem?_getD, List.getD_eq_getElem?_getD,
    List.getElem?_set_ne h]

/-- Reading a byte just set. -/
theorem getD_set_self (l : List Nat) (i v : Nat) (h : i < l.length) :
    (l.set i v).getD i 0 = v := by
  rw [List.getD_eq_getElem?_getD, List.getElem?_set_self h]
  rfl

/-- Bit characterization of the pixel loop over an arbitrary visiting
order: a bit of byte j is set after the loop exactly when it was set
before or some visited pixel with luminance below the threshold maps to
that byte and bit. -/
theorem rasterFold_testBit (w : Nat) (pix : Nat → Nat → Pixel)
    (coords : List (Nat × Nat)) (a : List Nat) (j b : Nat)
    (hj : j < a.length) :
    (Nat.testBit ((coords.foldl (rasterStep w pix) a).getD j 0) b = true ↔
      (Nat.testBit (a.getD j 0) b = true ∨
        ∃ yx ∈ coords, luminance (pix yx.2 yx.1) < 128 ∧
          yx.1 * bytesPerRow w + yx.2 / 8 = j ∧ 7 - yx.2 % 8 = b)) := by
  induction coords generalizing a with
  | nil => simp
  | cons yx coords ih =>
    rw [List.foldl_cons]
    rw [ih (rasterStep w pix a yx) (by rw [rasterStep_length]; exact hj)]
    have hstep : Nat.testBit ((rasterStep w pix a yx).getD j 0) b = true ↔
        (Nat.testBit (a.getD j 0) b = true ∨
          (luminance (pix yx.2 yx.1) < 128 ∧
            yx.1 * bytesPerRow w + yx.2 / 8 = j ∧ 7 - yx.2 % 8 = b)) := by
      unfold rasterStep
      by_cases hink : luminance (pix yx.2 yx.1) < 128
      · rw [if_pos hink]
        by_cases hidx : yx.1 * bytesPerRow w + yx.2 / 8 = j
        · rw [hidx, getD_set_self _ _ _ hj, Nat.one_shiftLeft, Nat.testBit_or,
            Nat.testBit_two_pow]
          by_cases hbit : 7 - yx.2 % 8 = b
          · simp [hbit, hink, hidx]
          · simp [hbit, hink, hidx]
        · rw [getD_set_ne _ _ _ _ hidx]
          simp [hink, hidx]
      · rw [if_neg hink]
        simp [hink]
    rw [hstep]
    constructor
    · rintro ((h | h) | h)
      · exact Or.inl h
      · exact Or.inr ⟨yx, by simp, h⟩
      · obtain ⟨z, hz, hp⟩ := h
        exact Or.inr ⟨z, by simp [hz], hp⟩
    · rintro (h | ⟨z, hz, hp⟩)
      · exact Or.inl (Or.inl h)
      · rcases List.mem_cons.mp hz with rfl | hz
        · exact Or.inl (Or.inr hp)
        · exact Or.inr ⟨z, hz, hp⟩

/-- Membership in the row-major visiting order. -/
theorem mem_rasterCoords (w h : Nat) (y x : Nat) :
    ((y, x) ∈ rasterCoords w h) ↔ (y < h ∧ x < w) := by
  simp [rasterCoords]

/-- Uniqueness of Euclidean decomposition. -/
theorem euclid_unique (B y1 q1 y2 q2 : Nat) (h1 : q1 < B) (h2 : q2 < B)
    (h : y1 * B + q1 = y2 * B + q2) : y1 = y2 ∧ q1 = q2 := by
  have hB : 0 < B := by omega
  have e1 : (y1 * B + q1) / B = y1 := by
    rw [Nat.mul_comm y1 B, Nat.mul_add_div hB, Nat.div_eq_of_lt h1]
    omega
  have e2 : (y2 * B + q2) / B = y2 := by
    rw [Nat.mul_comm y2 B, Nat.mul_add_div hB, Nat.div_eq_of_lt h2]
    omega

  have hy : y1 = y2 := by rw [← e1, ← e2, h]
  refine ⟨hy, ?_⟩
  subst hy
  omega

/-- C7: the raster conversion at width w and height h produces a
bitmap of ceil(w over 8) bytes per row and h rows, in which, for every
row y and bit column x of the padded row, the MSB-first bit 7 - x mod 8
of byte floor(x over 8) is set exactly when x addresses a real pixel
(x below w) whose luminance 0.299 R + 0.587 G + 0.114 B is strictly
below 128; in particular every padding bit beyond column w - 1 is 0. -/
theorem raster_bitmap_correct (w h : Nat) (pix : Nat → Nat → Pixel)
    (y x : Nat) (hy : y < h) (hx : x < 8 * bytesPerRow w) :
    (rasterBitmap w h pix).length = bytesPerRow w * h ∧
    (Nat.testBit ((rasterBitmap w h pix).getD (y * bytesPerRow w + x / 8) 0)
        (7 - x % 8) = true ↔
      (x < w ∧ luminance (pix x y) < 128)) := by
  have hq : x / 8 < bytesPerRow w := by
    rw [Nat.div_lt_iff_lt_mul (by norm_num)]
    omega
  have hj : y * bytesPerRow w + x / 8 < bytesPerRow w * h := by
    have h1 : y * bytesPerRow w + x / 8 < (y + 1) * bytesPerRow w := by
      rw [Nat.succ_mul]
      omega
    have h2 : (y + 1) * bytesPerRow w ≤ h * bytesPerRow w :=
      Nat.mul_le_mul_right _ hy
    rw [Nat.mul_comm (bytesPerRow w) h]
    omega
  constructor
  · unfold rasterBitmap
    rw [rasterFold_length, List.length_replicate]
  · unfold rasterBitmap
    rw [rasterFold_testBit w pix _ _ _ _ (by rw [List.length_replicate]; exact hj)]
    have hz : (List.replicate (bytesPerRow w * h) 0).getD
        (y * bytesPerRow w + x / 8) 0 = 0 := by
      rw [List.getD_eq_getElem?_getD, List.getElem?_replicate]
      split <;> rfl
    rw [hz, Nat.zero_testBit]
    simp only [false_or, Bool.false_eq_true]
    constructor
    · rintro ⟨⟨y1, x1⟩, hmem, hink, hidx, hbit⟩
      obtain ⟨hy1, hx1⟩ := (mem_rasterCoords w h y1 x1).mp hmem
      have hq1 : x1 / 8 < bytesPerRow w := by
        rw [Nat.div_lt_iff_lt_mul (by norm_num)]
        have h8 : w ≤ bytesPerRow w * 8 := by
          unfold bytesPerRow
          omega
        omega
      obtain ⟨rfl, hdiv⟩ := euclid_unique (bytesPerRow w) y1 (x1 / 8) y (x / 8) hq1 hq hidx
      have hxx : x1 = x := by omega
      subst hxx
      exact ⟨hx1, hink⟩
    · rintro ⟨hxw, hink⟩
      exact ⟨(y, x), (mem_rasterCoords w h y x).mpr ⟨hy, hxw⟩, hink, rfl, rfl⟩

set_option maxRecDepth 4000 in
/-- Witness for C7: the 16 by 16 all-black image at target width 16
yields a 2-byte-wide, 16-row bitmap with every bit set, the full
GS v 0 command carries that bitmap with the little-endian size header,
and the bit characterization holds at a sample pixel. -/
theorem raster_bitmap_correct_witness :
    rasterBitmap 16 16 (fun _ _ => ⟨0, 0, 0⟩) = List.replicate 32 255 ∧
    bytesPerRow 16 = 2 ∧
    printImageBytes 16 16 (fun _ _ => ⟨0, 0, 0⟩) 16 =
      [0x1D, 0x76, 0x30, 0x00, 2, 0, 16, 0] ++ List.replicate 32 255 ∧
    (Nat.testBit ((rasterBitmap 16 16 (fun _ _ => ⟨0, 0, 0⟩)).getD
        (0 * bytesPerRow 16 + 5 / 8) 0) (7 - 5 % 8) = true ↔
      (5 < 16 ∧ luminance ((fun _ _ => Pixel.mk 0 0 0) 5 0) < 128)) := by
  refine ⟨by decide, by decide, by decide, ?_⟩
  exact (raster_bitmap_correct 16 16 (fun _ _ => ⟨0, 0, 0⟩) 0 5
    (by decide) (by decide)).2

/-! ## C5: company-name wrapping -/

/-- The last index of a character is below the string length. -/
theorem lastIndexOfC_lt_length (c : Char) (l : JStr) :
    lastIndexOfC c l < (l.length : Int) := by
  induction l with
  | nil => simp [lastIndexOfC]
  | cons a as ih =>
    rw [lastIndexOfC]
    simp only [List.length_cons]
    split
    · push_cast
      omega
    · split <;> (push_cast; omega)

/-- A non-negative last index points at the character. -/
theorem lastIndexOfC_getElem {c : Char} {l : JStr} (h : 0 ≤ lastIndexOfC c l) :
    l[(lastIndexOfC c l).toNat]? = some c := by
  induction l with
  | nil => simp [lastIndexOfC] at h
  | cons a as ih =>
    rw [lastIndexOfC] at h ⊢
    by_cases h0 : 0 ≤ lastIndexOfC c as
    · rw [if_pos h0] at h ⊢
      have ht : (lastIndexOfC c as + 1).toNat = (lastIndexOfC c as).toNat + 1 := by
        omega
      rw [ht, List.getElem?_cons_succ]
      exact ih h0
    · rw [if_neg h0] at h ⊢
      by_cases hac : a = c
      · rw [if_pos hac]
        simp [hac]
      · rw [if_neg hac] at h
        norm_num at h

/-- Every occurrence index is at most the last index. -/
theorem lastIndexOfC_le {c : Char} {l : JStr} {j : Nat} (h : l[j]? = some c) :
    (j : Int) ≤ lastIndexOfC c l := by
  induction l generalizing j with
  | nil => simp at h
  | cons a as ih =>
    rw [lastIndexOfC]
    cases j with
    | zero =>
      rw [List.getElem?_cons_zero] at h
      have hac : a = c := by injection h
      by_cases h0 : 0 ≤ lastIndexOfC c as
      · rw [if_pos h0]
        omega
      · rw [if_neg h0, if_pos hac]
        omega
    | succ j =>
      rw [List.getElem?_cons_succ] at h
      have hj := ih h
      have h0 : 0 ≤ lastIndexOfC c as := le_trans (by omega) hj
      rw [if_pos h0]
      push_cast
      omega

/-- The head of a non-empty dropWhile fails the predicate. -/
theorem dropWhile_head_false {p : Char → Bool} {l : JStr} {d : Char} {t : JStr}
    (h : l.dropWhile p = d :: t) : p d = false := by
  induction l with
  | nil => simp at h
  | cons a as ih =>
    rw [List.dropWhile_cons] at h
    split at h
    · exact ih h
    · next hp =>
        cases h
        simpa using hp

/-- If the first n characters satisfy the predicate, the takeWhile
prefix has length at least n. -/
theorem takeWhile_length_ge {p : Char → Bool} :
    ∀ (s : JStr) (n : Nat), n ≤ s.length →
    (∀ j c, j < n → s[j]? = some c → p c = true) →
    n ≤ (s.takeWhile p).length := by
  intro s
  induction s with
  | nil =>
    intro n hn _
    simpa using hn
  | cons a as ih =>
    intro n hn h
    cases n with
    | zero => omega
    | succ n =>
      have hpa : p a = true := h 0 a (by omega) List.getElem?_cons_zero
      rw [List.takeWhile_cons, if_pos hpa]
      simp only [List.length_cons] at hn ⊢
      have := ih n (by omega)
        (fun j c hj hc => h (j + 1) c (by omega) (by rwa [List.getElem?_cons_succ]))
      omega

/-- takeWhile skips over an all-satisfying prefix of an append. -/
theorem takeWhile_append_all {p : Char → Bool} :
    ∀ {a : JStr} (b : JStr), (∀ x ∈ a, p x = true) →
    (a ++ b).takeWhile p = a ++ b.takeWhile p := by
  intro a
  induction a with
  | nil => intro b _; rfl
  | cons x a' ih =>
    intro b h
    rw [List.cons_append, List.takeWhile_cons, if_pos (h x (by simp)), List.cons_append,
      ih b (fun y hy => h y (by simp [hy]))]

/-- dropWhile skips over an all-satisfying prefix of an append. -/
theorem dropWhile_append_all {p : Char → Bool} :
    ∀ {a : JStr} (b : JStr), (∀ x ∈ a, p x = true) →
    (a ++ b).dropWhile p = b.dropWhile p := by
  intro a
  induction a with
  | nil => intro b _; rfl
  | cons x a' ih =>
    intro b h
    rw [List.cons_append, List.dropWhile_cons, if_pos (h x (by simp))]
    exact ih b (fun y hy => h y (by simp [hy]))

/-- takeWhile of an append stops inside the left part when the left
part contains a failing character. -/
theorem takeWhile_append_stop {p : Char → Bool} :
    ∀ {a : JStr} (b : JStr), a.dropWhile p ≠ [] →
    (a ++ b).takeWhile p = a.takeWhile p := by
  intro a
  induction a with
  | nil => intro b h; exact absurd rfl h
  | cons x a' ih =>
    intro b h
    rw [List.dropWhile_cons] at h
    rw [List.cons_append, List.takeWhile_cons, List.takeWhile_cons]
    split at h
    · next hp => rw [if_pos hp, if_pos hp, ih b h]
    · next hp =>
        rw [if_neg hp, if_neg hp]

/-- dropWhile of an append stops inside the left part when the left
part contains a failing character. -/
theorem dropWhile_append_stop {p : Char → Bool} :
    ∀ {a : JStr} (b : JStr), a.dropWhile p ≠ [] →
    (a ++ b).dropWhile p = a.dropWhile p ++ b := by
  intro a
  induction a with
  | nil => intro b h; exact absurd rfl h
  | cons x a' ih =>
    intro b h
    rw [List.dropWhile_cons] at h
    rw [List.cons_append, List.dropWhile_cons, List.dropWhile_cons]
    split at h
    · next hp => rw [if_pos hp, if_pos hp, ih b h]
    · next hp =>
        rw [if_neg hp, if_neg hp, List.cons_append]

/-- dropWhile is the identity when every character fails the
predicate. -/
theorem dropWhile_eq_self_of_none {p : Char → Bool} {l : JStr}
    (h : ∀ c ∈ l, p c = false) : l.dropWhile p = l := by
  cases l with
  | nil => rfl
  | cons a as =>
    rw [List.dropWhile_cons, if_neg (by simp [h a (by simp)])]

/-- wordsOf on the empty string. -/
theorem wordsOf_nil : wordsOf [] = [] := by
  rw [wordsOf]

/-- wordsOf skips a leading space. -/
theorem wordsOf_cons_space (cs : JStr) : wordsOf (' ' :: cs) = wordsOf cs := by
  rw [wordsOf]
  simp

/-- wordsOf on a string with a non-space head. -/
theorem wordsOf_cons_ns {c : Char} (cs : JStr) (h : c ≠ ' ') :
    wordsOf (c :: cs) =
      (c :: cs.takeWhile (· ≠ ' ')) :: wordsOf (cs.dropWhile (· ≠ ' ')) := by
  rw [wordsOf]
  simp [h]

/-- wordsOf on a non-space head, phrased with takeWhile and dropWhile
of the whole string. -/
theorem wordsOf_eq_take_drop {c : Char} {s' : JStr} (h : c ≠ ' ') :
    wordsOf (c :: s') = (c :: s').takeWhile (· ≠ ' ') ::
      wordsOf ((c :: s').dropWhile (· ≠ ' ')) := by
  rw [wordsOf_cons_ns s' h, List.takeWhile_cons, List.dropWhile_cons]
  simp [h]

/-- Splitting the word list at a space. -/
theorem wordsOf_append_space_aux :
    ∀ (n : Nat) (a b : JStr), a.length ≤ n →
    wordsOf (a ++ ' ' :: b) = wordsOf a ++ wordsOf b := by
  intro n
  induction n with
  | zero =>
    intro a b ha
    have : a = [] := List.eq_nil_of_length_eq_zero (by omega)
    subst this
    rw [List.nil_append, wordsOf_cons_space, wordsOf_nil, List.nil_append]
  | succ n ih =>
    intro a b ha
    cases a with
    | nil => rw [List.nil_append, wordsOf_cons_space, wordsOf_nil, List.nil_append]
    | cons c a' =>
      simp only [List.length_cons] at ha
      by_cases hc : c = ' '
      · subst hc
        rw [List.cons_append, wordsOf_cons_space, wordsOf_cons_space]
        exact ih a' b (by omega)
      · rw [List.cons_append, wordsOf_cons_ns _ hc, wordsOf_cons_ns _ hc]
        rcases hdrop : a'.dropWhile (· ≠ ' ') with _ | ⟨d, t⟩
        · have htake : a'.takeWhile (· ≠ ' ') = a' := by
            have htd := List.takeWhile_append_dropWhile (· ≠ ' ') a'
            rw [hdrop, List.append_nil] at htd
            exact htd
          have hall : ∀ x ∈ a', (x ≠ ' ' : Bool) = true := by
            intro x hx
            have hx2 : x ∈ a'.takeWhile (· ≠ ' ') := by
              rw [htake]
              exact hx
            exact @List.mem_takeWhile_imp _ (fun y => decide (y ≠ ' ')) a' x hx2
          rw [takeWhile_append_all _ hall, dropWhile_append_all _ hall]
          rw [List.takeWhile_cons, if_neg (by simp), List.append_nil]
          rw [List.dropWhile_cons, if_neg (by simp)]
          rw [wordsOf_cons_space, htake, wordsOf_nil]
          rfl
        · have hne : a'.dropWhile (· ≠ ' ') ≠ [] := by
            rw [hdrop]
            exact List.cons_ne_nil d t
          rw [takeWhile_append_stop _ hne, dropWhile_append_stop _ hne, hdrop]
          have hd : d = ' ' := by
            have := dropWhile_head_false hdrop
            simpa using this
          subst hd
          rw [List.cons_append, wordsOf_cons_space, wordsOf_cons_space]
          have htlen : t.length ≤ n := by
            have h1 : (a'.dropWhile (· ≠ ' ')).length ≤ a'.length :=
              (List.dropWhile_sublist _).length_le
            rw [hdrop] at h1
            simp only [List.length_cons] at h1
            omega
          rw [ih t b htlen]
          rfl

/-- Splitting the word list at a space (public form). -/
theorem wordsOf_append_space (a b : JStr) :
    wordsOf (a ++ ' ' :: b) = wordsOf a ++ wordsOf b :=
  wordsOf_append_space_aux a.length a b (le_refl _)

/-- Every word is an infix of the string. -/
theorem mem_wordsOf_infix_aux :
    ∀ (n : Nat) (l : JStr), l.length ≤ n → ∀ w ∈ wordsOf l, w <:+: l := by
  intro n
  induction n with
  | zero =>
    intro l hl w hw
    have : l = [] := List.eq_nil_of_length_eq_zero (by omega)
    subst this
    rw [wordsOf_nil] at hw
    simp at hw
  | succ n ih =>
    intro l hl w hw
    cases l with
    | nil =>
      rw [wordsOf_nil] at hw
      simp at hw
    | cons c cs =>
      simp only [List.length_cons] at hl
      by_cases hc : c = ' '
      · subst hc
        rw [wordsOf_cons_space] at hw
        exact List.infix_cons (ih cs (by omega) w hw)
      · rw [wordsOf_cons_ns _ hc] at hw
        rcases List.mem_cons.mp hw with rfl | hw
        · have hp : (c :: cs.takeWhile (· ≠ ' ')) <+: (c :: cs) :=
            List.cons_prefix_cons.mpr ⟨rfl, List.takeWhile_prefix _⟩
          exact hp.isInfix
        · have hlen : (cs.dropWhile (· ≠ ' ')).length ≤ n := by
            have := (List.dropWhile_sublist (l := cs) (· ≠ ' ')).length_le
            omega
          have hinf := ih _ hlen w hw
          exact List.infix_cons (hinf.trans (List.dropWhile_suffix _).isInfix)

/-- Every word is an infix of the string (public form). -/
theorem mem_wordsOf_infix {w l : JStr} (h : w ∈ wordsOf l) : w <:+: l :=
  mem_wordsOf_infix_aux l.length l (le_refl _) w h

/-- Trimming never lengthens a string. -/
theorem jsTrim_length_le (l : JStr) : (jsTrim l).length ≤ l.length := by
  unfold jsTrim
  calc (((l.dropWhile jsWhite).reverse.dropWhile jsWhite).reverse).length
      = ((l.dropWhile jsWhite).reverse.dropWhile jsWhite).length := List.length_reverse _
    _ ≤ (l.dropWhile jsWhite).reverse.length := (List.dropWhile_sublist _).length_le
    _ = (l.dropWhile jsWhite).length := List.length_reverse _
    _ ≤ l.length := (List.dropWhile_sublist _).length_le

/-- Dropping leading whitespace keeps the words, when the only
whitespace character in the string is the space. -/
theorem wordsOf_dropWhile_white {l : JStr}
    (hws : ∀ c ∈ l, jsWhite c = true → c = ' ') :
    wordsOf (l.dropWhile jsWhite) = wordsOf l := by
  induction l with
  | nil => rfl
  | cons a as ih =>
    rw [List.dropWhile_cons]
    by_cases hwa : jsWhite a = true
    · rw [if_pos hwa]
      have ha : a = ' ' := hws a (by simp) hwa
      subst ha
      rw [wordsOf_cons_space]
      exact ih (fun c hc hwc => hws c (by simp [hc]) hwc)
    · rw [if_neg hwa]

/-- A trailing space does not change the words. -/
theorem wordsOf_append_singleton_space (l : JStr) :
    wordsOf (l ++ [' ']) = wordsOf l := by
  have h := wordsOf_append_space l []
  rw [wordsOf_nil, List.append_nil] at h
  exact h

/-- Dropping trailing whitespace keeps the words, when the only
whitespace character in the string is the space. -/
theorem wordsOf_rstrip {l : JStr}
    (hws : ∀ c ∈ l, jsWhite c = true → c = ' ') :
    wordsOf ((l.reverse.dropWhile jsWhite).reverse) = wordsOf l := by
  induction l using List.reverseRecOn with
  | nil => rfl
  | append_singleton a c ih =>
    rw [List.reverse_append]
    simp only [List.reverse_cons, List.reverse_nil, List.nil_append, List.singleton_append]
    by_cases hwc : jsWhite c = true
    · rw [List.dropWhile_cons, if_pos hwc]
      have hc : c = ' ' := hws c (by simp) hwc
      subst hc
      rw [wordsOf_append_singleton_space]
      exact ih (fun x hx hwx => hws x (by simp [hx]) hwx)
    · rw [List.dropWhile_cons, if_neg hwc]
      rw [List.reverse_cons, List.reverse_reverse]

/-- Trimming keeps the words, when the only whitespace character in
the string is the space. -/
theorem wordsOf_jsTrim {l : JStr}
    (hws : ∀ c ∈ l, jsWhite c = true → c = ' ') :
    wordsOf (jsTrim l) = wordsOf l := by
  unfold jsTrim
  rw [wordsOf_rstrip
    (fun c hc hwc => hws c ((List.dropWhile_sublist _).subset hc) hwc)]
  exact wordsOf_dropWhile_white hws

/-- Every word of a string is an infix of its trim, when the only
whitespace character in the string is the space. -/
theorem word_infix_jsTrim {w l : JStr}
    (hws : ∀ c ∈ l, jsWhite c = true → c = ' ')
    (h : w ∈ wordsOf l) : w <:+: jsTrim l :=
  mem_wordsOf_infix (by rw [wordsOf_jsTrim hws]; exact h)

/-- Trimming a single leading space off an otherwise non-whitespace
string. -/
theorem jsTrim_space_cons_nonwhite {r : JStr}
    (h : ∀ c ∈ r, jsWhite c = false) : jsTrim (' ' :: r) = r := by
  unfold jsTrim
  rw [List.dropWhile_cons, if_pos (by rfl)]
  rw [dropWhile_eq_self_of_none h]
  rw [dropWhile_eq_self_of_none (fun c hc => h c (by simpa using hc))]
  exact List.reverse_reverse r

/-- The wrap loop on the empty remainder. -/
theorem wrapCompany_nil : wrapCompany [] = [] := by
  rw [wrapCompany]
  rfl

/-- The wrap loop in the break-at-last-space case. -/
theorem wrapCompany_break {s : JStr} (hne : s ≠ [])
    (hcond : 0 < lastIndexOfC ' ' (s.take 14) ∧ (s.take 14).length = 14) :
    wrapCompany s =
      jsTrim ((s.take 14).take (lastIndexOfC ' ' (s.take 14)).toNat) ::
        wrapCompany (s.drop ((lastIndexOfC ' ' (s.take 14)).toNat + 1)) := by
  rw [wrapCompany, dif_neg (fun h => hne (List.eq_nil_of_length_eq_zero h)),
    if_pos hcond]

/-- The wrap loop in the hard-break case. -/
theorem wrapCompany_hard {s : JStr} (hne : s ≠ [])
    (hcond : ¬(0 < lastIndexOfC ' ' (s.take 14) ∧ (s.take 14).length = 14)) :
    wrapCompany s = jsTrim (s.take 14) :: wrapCompany (s.drop 14) := by
  rw [wrapCompany, dif_neg (fun h => hne (List.eq_nil_of_length_eq_zero h)),
    if_neg hcond]

/-- Every emitted company-name line fits the 14-character budget. -/
theorem wrapCompany_line_le_aux :
    ∀ (n : Nat) (s : JStr), s.length ≤ n → ∀ l ∈ wrapCompany s, l.length ≤ 14 := by
  intro n
  induction n with
  | zero =>
    intro s hs l hl
    have : s = [] := List.eq_nil_of_length_eq_zero (by omega)
    subst this
    rw [wrapCompany_nil] at hl
    simp at hl
  | succ n ih =>
    intro s hs l hl
    by_cases hne : s = []
    · subst hne
      rw [wrapCompany_nil] at hl
      simp at hl
    have hpos : 1 ≤ s.length := by
      cases s with
      | nil => exact absurd rfl hne
      | cons a as => simp
    by_cases hcond : 0 < lastIndexOfC ' ' (s.take 14) ∧ (s.take 14).length = 14
    · rw [wrapCompany_break hne hcond] at hl
      rcases List.mem_cons.mp hl with rfl | hl
      · refine le_trans (jsTrim_length_le _) ?_
        simp only [List.length_take]
        omega
      · have hk1 : 1 ≤ (lastIndexOfC ' ' (s.take 14)).toNat + 1 := by omega
        refine ih _ ?_ l hl
        simp only [List.length_drop]
        omega
    · rw [wrapCompany_hard hne hcond] at hl
      rcases List.mem_cons.mp hl with rfl | hl
      · refine le_trans (jsTrim_length_le _) ?_
        simp only [List.length_take]
        omega
      · refine ih _ ?_ l hl
        simp only [List.length_drop]
        omega

/-- A string splits at a space occurrence. -/
theorem split_at_space {s : JStr} {k : Nat} (h : s[k]? = some ' ') :
    s = s.take k ++ ' ' :: s.drop (k + 1) := by
  have hk : k < s.length := by
    by_contra hcon
    push_neg at hcon
    rw [List.getElem?_eq_none hcon] at h
    exact absurd h (by simp)
  have hdrop := List.drop_eq_getElem_cons hk
  have hget : s[k] = ' ' := by
    have := List.getElem?_eq_getElem hk
    rw [h] at this
    injection this with hinj
    exact hinj.symm
  rw [hget] at hdrop
  conv_lhs => rw [← List.take_append_drop k s, hdrop]

/-- Every word of fewer than 14 characters survives wrapping whole
inside one emitted line. -/
theorem wrap_words_aux :
    ∀ (n : Nat) (s : JStr), s.length ≤ n →
    (∀ c ∈ s, jsWhite c = true → c = ' ') →
    ∀ w ∈ wordsOf s, w.length < 14 → ∃ l ∈ wrapCompany s, w <:+: l := by
  intro n
  induction n with
  | zero =>
    intro s hs _ w hw _
    have : s = [] := List.eq_nil_of_length_eq_zero (by omega)
    subst this
    rw [wordsOf_nil] at hw
    simp at hw
  | succ n ih =>
    intro s hs hws w hw hwlen
    by_cases hne : s = []
    · subst hne
      rw [wordsOf_nil] at hw
      simp at hw
    have hpos : 1 ≤ s.length := by
      cases s with
      | nil => exact absurd rfl hne
      | cons a as => simp
    by_cases hcond : 0 < lastIndexOfC ' ' (s.take 14) ∧ (s.take 14).length = 14
    · -- break at the last space of the chunk
      obtain ⟨hpos14, hlen14⟩ := hcond
      have hklt : (lastIndexOfC ' ' (s.take 14)).toNat < 14 := by
        have := lastIndexOfC_lt_length ' ' (s.take 14)
        rw [hlen14] at this
        omega
      have hsk : s[(lastIndexOfC ' ' (s.take 14)).toNat]? = some ' ' := by
        have hget := lastIndexOfC_getElem (c := ' ') (l := s.take 14) (by omega)
        rw [List.getElem?_take, if_pos hklt] at hget
        exact hget
      have heq : wrapCompany s =
          jsTrim (s.take (lastIndexOfC ' ' (s.take 14)).toNat) ::
            wrapCompany (s.drop ((lastIndexOfC ' ' (s.take 14)).toNat + 1)) := by
        rw [wrapCompany_break hne ⟨hpos14, hlen14⟩, List.take_take,
          min_eq_left (le_of_lt hklt)]
      have hwords : wordsOf s =
          wordsOf (s.take (lastIndexOfC ' ' (s.take 14)).toNat) ++
            wordsOf (s.drop ((lastIndexOfC ' ' (s.take 14)).toNat + 1)) := by
        conv_lhs => rw [split_at_space hsk]
        exact wordsOf_append_space _ _
      rw [hwords] at hw
      rcases List.mem_append.mp hw with hw | hw
      · refine ⟨jsTrim (s.take (lastIndexOfC ' ' (s.take 14)).toNat),
          by rw [heq]; simp, ?_⟩
        exact word_infix_jsTrim
          (fun c hc hwc => hws c (List.mem_of_mem_take hc) hwc) hw
      · obtain ⟨l, hl, hinf⟩ := ih (s.drop ((lastIndexOfC ' ' (s.take 14)).toNat + 1))
          (by simp only [List.length_drop]; omega)
          (fun c hc hwc => hws c (List.mem_of_mem_drop hc) hwc) w hw hwlen
        exact ⟨l, by rw [heq]; exact List.mem_cons_of_mem _ hl, hinf⟩
    · -- hard break
      by_cases hsmall : s.length ≤ 14
      · have heq : wrapCompany s = [jsTrim s] := by
          rw [wrapCompany_hard hne hcond, List.take_of_length_le hsmall,
            List.drop_eq_nil_of_le hsmall, wrapCompany_nil]
        exact ⟨jsTrim s, by rw [heq]; simp, word_infix_jsTrim hws hw⟩
      · push_neg at hsmall
        have hlen14 : (s.take 14).length = 14 := by
          simp only [List.length_take]
          omega
        have hli : lastIndexOfC ' ' (s.take 14) ≤ 0 := by
          by_contra hcon
          push_neg at hcon
          exact hcond ⟨hcon, hlen14⟩
        have hns : ∀ j, 1 ≤ j → j < 14 → s[j]? ≠ some ' ' := by
          intro j h1 h14x hcon
          have hcj : (s.take 14)[j]? = some ' ' := by
            rw [List.getElem?_take, if_pos h14x]
            exact hcon
          have := lastIndexOfC_le hcj
          omega
      -- decompose the head of s
        obtain ⟨c, s', rfl⟩ : ∃ c s', s = c :: s' := by
          cases s with
          | nil => exact absurd rfl hne
          | cons c s' => exact ⟨c, s', rfl⟩
        have heq : wrapCompany (c :: s') =
            jsTrim ((c :: s').take 14) :: wrapCompany ((c :: s').drop 14) :=
          wrapCompany_hard hne hcond
        simp only [List.length_cons] at hs hsmall
        by_cases hc : c = ' '
        · -- leading space, then at least 13 non-space characters
          subst hc
          have hw' : w ∈ wordsOf s' := by rwa [wordsOf_cons_space] at hw
          obtain ⟨c1, s'', rfl⟩ : ∃ c1 s'', s' = c1 :: s'' := by
            cases s' with
            | nil => simp at hsmall
            | cons c1 s'' => exact ⟨c1, s'', rfl⟩
          simp only [List.length_cons] at hsmall hs
          have hns' : ∀ j c', j < 13 → (c1 :: s'')[j]? = some c' →
              ((c' ≠ ' ' : Bool)) = true := by
            intro j c' hj hc'
            have hj2 := hns (j + 1) (by omega) (by omega)
            rw [List.getElem?_cons_succ] at hj2
            by_cases hsp : c' = ' '
            · exact absurd (hsp ▸ hc') hj2
            · simpa using hsp
          have hc1 : c1 ≠ ' ' := by
            intro hcon
            have h1 := hns 1 (le_refl 1) (by omega)
            rw [List.getElem?_cons_succ, List.getElem?_cons_zero] at h1
            exact h1 (by rw [hcon])
          have hr13 : 13 ≤ ((c1 :: s'').takeWhile (· ≠ ' ')).length :=
            takeWhile_length_ge _ 13 (by simp only [List.length_cons]; omega) hns'
          rw [wordsOf_eq_take_drop hc1] at hw'
          rcases List.mem_cons.mp hw' with rfl | hw'
          · -- the word is the 13-character run; it equals the emitted line
            have hr'len : ((c1 :: s'').takeWhile (· ≠ ' ')).length = 13 := by
              omega
            have hpref : (c1 :: s'').takeWhile (· ≠ ' ') = (c1 :: s'').take 13 := by
              have hp := List.prefix_iff_eq_take.mp
                (List.takeWhile_prefix (l := c1 :: s'') (· ≠ ' '))
              rw [hr'len] at hp
              exact hp
            have hemit : jsTrim ((' ' :: c1 :: s'').take 14) =
                (c1 :: s'').takeWhile (· ≠ ' ') := by
              rw [show (' ' :: c1 :: s'').take 14 = ' ' :: (c1 :: s'').take 13 from rfl,
                ← hpref]
              apply jsTrim_space_cons_nonwhite
              intro x hx
              have hxmem : x ∈ (' ' :: c1 :: s'') := by
                have h1 : x ∈ (c1 :: s'') := List.mem_of_mem_take (hpref ▸ hx)
                simp only [List.mem_cons] at h1 ⊢
                tauto
              have hxns : x ≠ ' ' := by
                simpa using @List.mem_takeWhile_imp _ (fun y => decide (y ≠ ' ')) _ x hx
              by_cases hxw : jsWhite x = true
              · exact absurd (hws x hxmem hxw) hxns
              · simpa using hxw
            refine ⟨jsTrim ((' ' :: c1 :: s'').take 14), by rw [heq]; simp, ?_⟩
            rw [hemit]
          · -- the word lies beyond the run
            rcases hrest : (c1 :: s'').dropWhile (· ≠ ' ') with _ | ⟨d, t⟩
            · rw [hrest, wordsOf_nil] at hw'
              simp at hw'
            · have hd : d = ' ' := by
                have := dropWhile_head_false hrest
                simpa using this
              subst hd
              rw [hrest, wordsOf_cons_space] at hw'
              have hdecomp : (' ' :: c1 :: s'').drop 14 =
                  ((c1 :: s'').takeWhile (· ≠ ' ')).drop 13 ++ (' ' :: t) := by
                have h0 : (' ' :: c1 :: s'').drop 14 = (c1 :: s'').drop 13 := rfl
                rw [h0]
                conv_lhs => rw [← List.takeWhile_append_dropWhile (· ≠ ' ') (c1 :: s'')]
                rw [List.drop_append_eq_append_drop,
                  show 13 - ((c1 :: s'').takeWhile (· ≠ ' ')).length = 0 by omega,
                  List.drop_zero, hrest]
              have hwdrop : w ∈ wordsOf ((' ' :: c1 :: s'').drop 14) := by
                rw [hdecomp, wordsOf_append_space]
                exact List.mem_append.mpr (Or.inr hw')
              obtain ⟨l, hl, hinf⟩ := ih ((' ' :: c1 :: s'').drop 14)
                (by simp only [List.length_drop, List.length_cons]; omega)
                (fun x hx hwx => hws x (List.mem_of_mem_drop hx) hwx) w hwdrop hwlen
              exact ⟨l, by rw [heq]; exact List.mem_cons_of_mem _ hl, hinf⟩
        · -- head is not a space: the first 14 characters are non-space
          have hns0 : ∀ j c', j < 14 → (c :: s')[j]? = some c' →
              ((c' ≠ ' ' : Bool)) = true := by
            intro j c' hj hc'
            cases j with
            | zero =>
              rw [List.getElem?_cons_zero] at hc'
              injection hc' with hc''
              subst hc''
              simpa using hc
            | succ j =>
              have hj2 := hns (j + 1) (by omega) (by omega)
              by_cases hsp : c' = ' '
              · exact absurd (hsp ▸ hc') hj2
              · simpa using hsp
          have hr14 : 14 ≤ ((c :: s').takeWhile (· ≠ ' ')).length :=
            takeWhile_length_ge _ 14 (by simp only [List.length_cons]; omega) hns0
          rw [wordsOf_eq_take_drop hc] at hw
          rcases List.mem_cons.mp hw with rfl | hw
          · omega
          · rcases hrest : (c :: s').dropWhile (· ≠ ' ') with _ | ⟨d, t⟩
            · rw [hrest, wordsOf_nil] at hw
              simp at hw
            · have hd : d = ' ' := by
                have := dropWhile_head_false hrest
                simpa using this
              subst hd
              rw [hrest, wordsOf_cons_space] at hw
              have hdecomp : (c :: s').drop 14 =
                  ((c :: s').takeWhile (· ≠ ' ')).drop 14 ++ (' ' :: t) := by
                conv_lhs => rw [← List.takeWhile_append_dropWhile (· ≠ ' ') (c :: s')]
                rw [List.drop_append_eq_append_drop,
                  show 14 - ((c :: s').takeWhile (· ≠ ' ')).length = 0 by omega,
                  List.drop_zero, hrest]
              have hwdrop : w ∈ wordsOf ((c :: s').drop 14) := by
                rw [hdecomp, wordsOf_append_space]
                exact List.mem_append.mpr (Or.inr hw)
              obtain ⟨l, hl, hinf⟩ := ih ((c :: s').drop 14)
                (by simp only [List.length_drop, List.length_cons]; omega)
                (fun x hx hwx => hws x (List.mem_of_mem_drop hx) hwx) w hwdrop hwlen
              exact ⟨l, by rw [heq]; exact List.mem_cons_of_mem _ hl, hinf⟩

/-- C5 counterexample: a company name made of one space followed by a
14-character word. The word does not exceed the 14-character budget,
yet wrapping splits it across two lines: the only space of the full
chunk is at position 0, so the break is not moved back to it and the
hard break cuts the word. -/
theorem company_wrap_cex :
    wordsOf (jstr " abcdefghijklmn") = [jstr "abcdefghijklmn"] ∧
    (jstr "abcdefghijklmn").length ≤ 14 ∧
    wrapCompany (jstr " abcdefghijklmn") = [jstr "abcdefghijklm", jstr "n"] ∧
    (∀ l ∈ wrapCompany (jstr " abcdefghijklmn"),
      ¬ (jstr "abcdefghijklmn" <:+: l)) := by
  have hwrap : wrapCompany (jstr " abcdefghijklmn") =
      [jstr "abcdefghijklm", jstr "n"] := by
    rw [wrapCompany, dif_neg (by decide), if_neg (by decide)]
    rw [show (jstr " abcdefghijklmn").drop 14 = jstr "n" from by decide]
    rw [wrapCompany, dif_neg (by decide), if_neg (by decide)]
    rw [show (jstr "n").drop 14 = ([] : JStr) from by decide]
    rw [wrapCompany_nil]
    decide
  refine ⟨?_, by decide, hwrap, ?_⟩
  · rw [show jstr " abcdefghijklmn" = [' ', 'a', 'b', 'c', 'd', 'e', 'f', 'g', 'h', 'i', 'j', 'k', 'l', 'm', 'n'] from rfl]
    simp +decide [wordsOf_cons_ns, wordsOf_cons_space, wordsOf_nil]
  · rw [hwrap]
    intro l hl
    rcases List.mem_cons.mp hl with rfl | hl
    · decide
    · rcases List.mem_cons.mp hl with rfl | hl
      · decide
      · simp at hl

/-- C5 amended: for every company name whose only whitespace character
is the plain space: every emitted line has at most 14 characters; every
word of fewer than 14 characters appears whole inside one emitted line
(only words of 14 or more characters can be split); and whenever the
name is at least 14 characters long and its 14-character chunk contains
a space after the first position, the break moves back to the last such
space, which is consumed, and wrapping continues after it. -/
theorem company_wrap_properties (s : JStr)
    (hws : ∀ c ∈ s, jsWhite c = true → c = ' ') :
    (∀ l ∈ wrapCompany s, l.length ≤ 14) ∧
    (∀ w ∈ wordsOf s, w.length < 14 → ∃ l ∈ wrapCompany s, w <:+: l) ∧
    (∀ i, 14 ≤ s.length → 0 < i → i < 14 → s[i]? = some ' ' →
      ∃ k, 0 < k ∧ k < 14 ∧ s[k]? = some ' ' ∧
        (∀ j, k < j → j < 14 → s[j]? ≠ some ' ') ∧
        wrapCompany s = jsTrim (s.take k) :: wrapCompany (s.drop (k + 1))) := by
  refine ⟨wrapCompany_line_le_aux s.length s (le_refl _),
    wrap_words_aux s.length s (le_refl _) hws, ?_⟩
  intro i h14 hi0 hi14 hisp
  have hne : s ≠ [] := by
    intro hcon
    subst hcon
    simp at h14
  have hlen14 : (s.take 14).length = 14 := by
    simp only [List.length_take]
    omega
  have hchunk : (s.take 14)[i]? = some ' ' := by
    rw [List.getElem?_take, if_pos hi14]
    exact hisp
  have hile := lastIndexOfC_le hchunk
  have hpos : 0 < lastIndexOfC ' ' (s.take 14) := by omega
  have hklt : (lastIndexOfC ' ' (s.take 14)).toNat < 14 := by
    have := lastIndexOfC_lt_length ' ' (s.take 14)
    rw [hlen14] at this
    omega
  refine ⟨(lastIndexOfC ' ' (s.take 14)).toNat, by omega, hklt, ?_, ?_, ?_⟩
  · have hget := lastIndexOfC_getElem (c := ' ') (l := s.take 14) (by omega)
    rw [List.getElem?_take, if_pos hklt] at hget
    exact hget
  · intro j hkj hj14 hcon
    have hcj : (s.take 14)[j]? = some ' ' := by
      rw [List.getElem?_take, if_pos hj14]
      exact hcon
    have := lastIndexOfC_le hcj
    omega
  · rw [wrapCompany_break hne ⟨hpos, hlen14⟩, List.take_take,
      min_eq_left (le_of_lt hklt)]

/-- Witness for the amended C5 at the company name of the
specification test: all lines within budget, the word SUPERLONG lands
whole in a line, and the first chunk breaks at its last space. -/
theorem company_wrap_properties_witness :
    (∀ l ∈ wrapCompany (jstr "SUPERLONG COMPANY NAME PRIVATE LIMITED"),
      l.length ≤ 14) ∧
    (∃ l ∈ wrapCompany (jstr "SUPERLONG COMPANY NAME PRIVATE LIMITED"),
      jstr "SUPERLONG" <:+: l) ∧
    (∃ k, 0 < k ∧ k < 14 ∧
      (jstr "SUPERLONG COMPANY NAME PRIVATE LIMITED")[k]? = some ' ' ∧
      (∀ j, k < j → j < 14 →
        (jstr "SUPERLONG COMPANY NAME PRIVATE LIMITED")[j]? ≠ some ' ') ∧
      wrapCompany (jstr "SUPERLONG COMPANY NAME PRIVATE LIMITED") =
        jsTrim ((jstr "SUPERLONG COMPANY NAME PRIVATE LIMITED").take k) ::
          wrapCompany ((jstr "SUPERLONG COMPANY NAME PRIVATE LIMITED").drop (k + 1))) := by
  have h := company_wrap_properties (jstr "SUPERLONG COMPANY NAME PRIVATE LIMITED")
    (by decide)
  exact ⟨h.1, h.2.1 (jstr "SUPERLONG") (by
      rw [show jstr "SUPERLONG COMPANY NAME PRIVATE LIMITED" = ['S', 'U', 'P', 'E', 'R', 'L', 'O', 'N', 'G', ' ', 'C', 'O', 'M', 'P', 'A', 'N', 'Y', ' ', 'N', 'A', 'M', 'E', ' ', 'P', 'R', 'I', 'V', 'A', 'T', 'E', ' ', 'L', 'I', 'M', 'I', 'T', 'E', 'D'] from rfl]
      simp +decide [wordsOf_cons_ns, wordsOf_cons_space, wordsOf_nil]) (by decide),
    h.2.2 9 (by decide) (by decide) (by decide) (by decide)⟩

end Tally
